import Mathlib

/-!
Verification development for the `ecw` electrical-calculator repository.

The numeric core of the program (token grammar parser, tolerance-propagating
quantity algebra, Ohm's-Law solver, voltage-divider chain solver) is shallowly
embedded below.  `f64` nominal values are modelled as `Option ℚ`: `some q` is a
finite float value taken exactly (float rounding is not modelled), `none`
models `f64::NAN`, which the program produces when a field parses successfully
without any numeric token.  A Rust `panic!` (abnormal termination) is modelled
by an `Option` result being `none`.  The square root used by the `(R,P)` branch
of the Ohm's-Law solver is a parameter `sq : ℚ → ℚ`; theorems constrain it only
at the concrete arguments the code passes to `f64::sqrt`.
-/

namespace ECW

attribute [local semireducible] Rat.add Rat.mul Rat.sub Rat.inv

/-- `types/mod.rs` `ParserError`. -/
inductive ParserError where
  | emptyInput : ParserError
  | incorrectInput : String → ParserError
deriving DecidableEq, Repr

/-- `types/mod.rs` `Tolerance`: an asymmetric percentage tolerance. -/
structure Tolerance where
  plus : ℚ
  minus : ℚ
deriving DecidableEq, Repr

/-- `types/mod.rs` `Dim`: SI magnitude prefixes. -/
inductive Dim where
  | pico | nano | micro | milli | dimNone | kilo | mega | giga | tera
deriving DecidableEq, Repr

/-- `Dim::coefficient`. -/
def Dim.coefficient : Dim → ℚ
  | .pico => 1 / 1000000000000
  | .nano => 1 / 1000000000
  | .micro => 1 / 1000000
  | .milli => 1 / 1000
  | .dimNone => 1
  | .kilo => 1000
  | .mega => 1000000
  | .giga => 1000000000
  | .tera => 1000000000000

/-- The common shape of `Voltage`, `Current`, `Resistance` and `Power`
(`types/{voltage,current,resistance,power}.rs`): an `f64` nominal value plus an
optional tolerance.  All four Rust structs have this exact shape and identical
parsing code; only the unit label used for display differs, and no claim
concerns display.  `value = none` models the `f64::NAN` nominal. -/
structure Quantity where
  value : Option ℚ
  tolerance : Option Tolerance
deriving DecidableEq, Repr

/-- `Default` impls of the quantity types: value `0.0`, no tolerance. -/
def Quantity.default : Quantity := ⟨some 0, none⟩

instance {ε α : Type} [DecidableEq ε] [DecidableEq α] : DecidableEq (Except ε α) :=
  fun a b =>
    match a, b with
    | .ok x, .ok y =>
        if h : x = y then .isTrue (by rw [h]) else .isFalse (by simp [h])
    | .error x, .error y =>
        if h : x = y then .isTrue (by rw [h]) else .isFalse (by simp [h])
    | .ok _, .error _ => .isFalse (by simp)
    | .error _, .ok _ => .isFalse (by simp)

/-- NaN-propagating `f64` multiplication on nominal values. -/
def fmul : Option ℚ → Option ℚ → Option ℚ
  | some a, some b => some (a * b)
  | _, _ => none

/-- NaN-propagating `f64` addition. -/
def fadd : Option ℚ → Option ℚ → Option ℚ
  | some a, some b => some (a + b)
  | _, _ => none

/-- NaN-propagating `f64` subtraction. -/
def fsub : Option ℚ → Option ℚ → Option ℚ
  | some a, some b => some (a - b)
  | _, _ => none

/-- NaN-propagating `f64` division.  Division by an exact zero produces a
non-finite float; such results (and NaN operands) are modelled as `none`. -/
def fdiv : Option ℚ → Option ℚ → Option ℚ
  | some a, some b => if b = 0 then none else some (a / b)
  | _, _ => none

/-- `(tol.minus, tol.plus)` of an operand, `(0, 0)` when absent - the
`match ... None => (0.0, 0.0)` pattern of `types/mod.rs`. -/
def tolMM : Option Tolerance → ℚ × ℚ
  | some t => (t.minus, t.plus)
  | none => (0, 0)

/-- `types/mod.rs` `calculate_multiplication_with_tolerance`. -/
def calculate_multiplication_with_tolerance (a b : Quantity) : Quantity :=
  let result := fmul a.value b.value
  if a.tolerance = none ∧ b.tolerance = none then ⟨result, none⟩
  else
    let m1 := tolMM a.tolerance
    let m2 := tolMM b.tolerance
    ⟨result, some ⟨m1.2 + m2.2, m1.1 + m2.1⟩⟩

/-- `types/mod.rs` `calculate_division_with_tolerance`.  The Rust function
starts with `if factor2.get_nominal_value() == 0.0 { panic!(...) }`; the panic
is modelled by returning `none`. -/
def calculate_division_with_tolerance (a b : Quantity) : Option Quantity :=
  if b.value = some 0 then none
  else
    let result := fdiv a.value b.value
    if a.tolerance = none ∧ b.tolerance = none then some ⟨result, none⟩
    else
      let m1 := tolMM a.tolerance
      let m2 := tolMM b.tolerance
      some ⟨result, some ⟨m1.2 + m2.1, m1.1 + m2.2⟩⟩

/-- Absolute deviation band `(min_abs, max_abs)` of one operand in
`calculate_addition_with_tolerance` / `calculate_subtraction_with_tolerance`.
The band is a function of the nominal value; a NaN nominal would make the band
NaN in Rust, a case no claim touches - it is modelled with `getD 0`. -/
def absBand (q : Quantity) : ℚ × ℚ :=
  match q.tolerance with
  | some t =>
      let nom := q.value.getD 0
      (nom - nom * (1 - t.minus / 100), nom * (1 + t.plus / 100) - nom)
  | none => (0, 0)

/-- `types/mod.rs` `calculate_addition_with_tolerance`.  The percentage
re-expression divides by the result; dividing by a zero result gives a
non-finite float in Rust (no panic), modelled by Lean's total `ℚ` division. -/
def calculate_addition_with_tolerance (a b : Quantity) : Quantity :=
  let result := fadd a.value b.value
  if a.tolerance = none ∧ b.tolerance = none then ⟨result, none⟩
  else
    let b1 := absBand a
    let b2 := absBand b
    let res := result.getD 0
    ⟨result, some ⟨(b1.2 + b2.2) / res * 100, (b1.1 + b2.1) / res * 100⟩⟩

/-- `types/mod.rs` `calculate_subtraction_with_tolerance`. -/
def calculate_subtraction_with_tolerance (a b : Quantity) : Quantity :=
  let result := fsub a.value b.value
  if a.tolerance = none ∧ b.tolerance = none then ⟨result, none⟩
  else
    let b1 := absBand a
    let b2 := absBand b
    let res := result.getD 0
    ⟨result, some ⟨(b1.2 + b2.2) / res * 100, (b1.1 + b2.1) / res * 100⟩⟩

/-- `impl Div<Current> for Voltage` (`voltage.rs`): `R = V / I`. -/
def voltage_div_current (v c : Quantity) : Option Quantity :=
  calculate_division_with_tolerance v c

/-- `impl Div<Resistance> for Voltage` (`voltage.rs`): `I = V / R`. -/
def voltage_div_resistance (v r : Quantity) : Option Quantity :=
  calculate_division_with_tolerance v r

/-- `impl Mul<Current> for Voltage` (`voltage.rs`): `P = V * I`. -/
def voltage_mul_current (v c : Quantity) : Quantity :=
  calculate_multiplication_with_tolerance v c

/-- `impl Mul<Resistance> for Current` (`current.rs`): `V = I * R`. -/
def current_mul_resistance (c r : Quantity) : Quantity :=
  calculate_multiplication_with_tolerance c r

/-- `impl Div<Voltage> for Power` (`power.rs`): `I = P / V`. -/
def power_div_voltage (p v : Quantity) : Option Quantity :=
  calculate_division_with_tolerance p v

/-- `impl Mul<Current> for Power` (`power.rs`): despite the `Mul` trait, the
body calls `calculate_division_with_tolerance(&self, &rhs)`, so `P * I`
computes `P / I` (used by the solver as `V = P / I`). -/
def power_mul_current (p c : Quantity) : Option Quantity :=
  calculate_division_with_tolerance p c

/-- `impl Mul<Current> for Resistance` (`resistance.rs`): squares the current
with `calculate_multiplication_with_tolerance(&rhs, &rhs)` and then divides it
by the resistance, so `R * I` computes `I*I / R`. -/
def resistance_mul_current (r c : Quantity) : Option Quantity :=
  calculate_division_with_tolerance (calculate_multiplication_with_tolerance c c) r

/-- `impl Add for Resistance` (`resistance.rs`). -/
def resistance_add (a b : Quantity) : Quantity :=
  calculate_addition_with_tolerance a b

/-- `impl Sub for Voltage` (`voltage.rs`). -/
def voltage_sub (a b : Quantity) : Quantity :=
  calculate_subtraction_with_tolerance a b

/-- `impl Add for Voltage` (`voltage.rs`). -/
def voltage_add (a b : Quantity) : Quantity :=
  calculate_addition_with_tolerance a b

/-- The `plus` percentage of a quantity, `0` when it carries no tolerance
(the spec's "missing tolerance treated as 0 on both sides"). -/
def plusD (q : Quantity) : ℚ :=
  match q.tolerance with
  | some t => t.plus
  | none => 0

/-- The `minus` percentage of a quantity, `0` when it carries no tolerance. -/
def minusD (q : Quantity) : ℚ :=
  match q.tolerance with
  | some t => t.minus
  | none => 0

/-! ## Token grammar (`parser/mod.rs`)

The repository builds its token grammar from `nom` 7 combinators.  The
combinators are embedded directly: `nom::number::complete::double` is modelled
after `recognize_float` (optional sign, decimal digits with optional fraction,
optional exponent; an `e` not followed by digits is not consumed), with the
parsed literal taken as an exact rational.  The `inf`/`nan` exception spellings
accepted by some `nom` versions are not modelled; no claim concerns them. -/

/-- `Block` (`parser/mod.rs`). -/
inductive Block where
  | TolMinus : ℚ → Block
  | TolPlus : ℚ → Block
  | TolPlusMinus : ℚ → Block
  | Number : ℚ → Block
  | NumberSuffix : ℚ → Dim → Block
deriving DecidableEq, Repr

/-- Longest run of ASCII digits at the head (`nom` `digit0`/`digit1`). -/
def takeDigits : List Char → List Char × List Char
  | [] => ([], [])
  | c :: t =>
      if c.isDigit then
        let p := takeDigits t
        (c :: p.1, p.2)
      else ([], c :: t)

/-- Numeric value of a digit character. -/
def digitVal (c : Char) : ℕ := c.toNat - 48

/-- Value of a digit run read in base 10. -/
def digitsVal (ds : List Char) : ℕ :=
  ds.foldl (fun a c => a * 10 + digitVal c) 0

/-- Value of a digit run read as a decimal fraction. -/
def fracVal (ds : List Char) : ℚ :=
  (digitsVal ds : ℚ) / 10 ^ ds.length

/-- Apply an exponent whose digits start at `t`; when no digits follow, the
exponent marker is not consumed and parsing resumes at `orig`. -/
def applyExp (v : ℚ) (neg : Bool) (t orig : List Char) : ℚ × List Char :=
  match takeDigits t with
  | ([], _) => (v, orig)
  | (ds, r) => (if neg then v / 10 ^ digitsVal ds else v * 10 ^ digitsVal ds, r)

/-- Optional exponent suffix of a float literal. -/
def expPart (v : ℚ) (cs : List Char) : ℚ × List Char :=
  match cs with
  | [] => (v, [])
  | c :: t =>
      if c == 'e' || c == 'E' then
        match t with
        | [] => (v, cs)
        | s :: t2 =>
            if s == '+' then applyExp v false t2 cs
            else if s == '-' then applyExp v true t2 cs
            else applyExp v false t cs
      else (v, cs)

/-- Unsigned float literal: `digit1 ('.' digit0)? exp?` or `'.' digit1 exp?`. -/
def udouble (cs : List Char) : Option (ℚ × List Char) :=
  let p := takeDigits cs
  if p.1.isEmpty then
    match cs with
    | c :: t =>
        if c = '.' then
          let q := takeDigits t
          if q.1.isEmpty then none
          else some (expPart (fracVal q.1) q.2)
        else none
    | [] => none
  else
    match p.2 with
    | c :: t =>
        if c = '.' then
          let fr := takeDigits t
          some (expPart ((digitsVal p.1 : ℚ) + fracVal fr.1) fr.2)
        else some (expPart (digitsVal p.1) (c :: t))
    | [] => some (expPart (digitsVal p.1) [])

/-- `nom::number::complete::double`: optionally signed float literal. -/
def double (cs : List Char) : Option (ℚ × List Char) :=
  match cs with
  | c :: t =>
      if c = '+' then udouble t
      else if c = '-' then (udouble t).map (fun p => (-p.1, p.2))
      else udouble (c :: t)
  | [] => none

/-- `nom::bytes::complete::tag("%")`: require a leading percent sign. -/
def tagPercent : Option (ℚ × List Char) → Option (ℚ × List Char)
  | some (q, c :: r) => if c = '%' then some (q, r) else none
  | _ => none

/-- `percentage_plus_parser`: `"+" double "%"`, yielding `TolPlus`. -/
def pPlus (cs : List Char) : Option (Block × List Char) :=
  match cs with
  | c :: t =>
      if c = '+' then
        (tagPercent (double t)).map (fun p => (Block.TolPlus p.1, p.2))
      else none
  | [] => none

/-- `percentage_minus_parser`: `"-" double "%"`, yielding `TolMinus` of the
absolute value (`number.abs()` in the source). -/
def pMinus (cs : List Char) : Option (Block × List Char) :=
  match cs with
  | c :: t =>
      if c = '-' then
        (tagPercent (double t)).map (fun p => (Block.TolMinus (abs p.1), p.2))
      else none
  | [] => none

/-- `percentage_plus_minus_parser`: plus, slash, minus, then `double "%"`. -/
def pPM (cs : List Char) : Option (Block × List Char) :=
  match cs with
  | c1 :: c2 :: c3 :: t =>
      if c1 = '+' ∧ c2 = '/' ∧ c3 = '-' then
        (tagPercent (double t)).map (fun p => (Block.TolPlusMinus p.1, p.2))
      else none
  | _ => none

/-- `percentage_plus_minus_parser2`: bare `double "%"`. -/
def pPM2 (cs : List Char) : Option (Block × List Char) :=
  (tagPercent (double cs)).map (fun p => (Block.TolPlusMinus p.1, p.2))

/-- Magnitude letters accepted by `double_suffix_parser`. -/
def suffixDim (c : Char) : Option Dim :=
  if c = 'p' then some .pico
  else if c = 'n' then some .nano
  else if c = 'u' then some .micro
  else if c = 'm' then some .milli
  else if c = 'k' then some .kilo
  else if c = 'M' then some .mega
  else if c = 'G' then some .giga
  else if c = 'T' then some .tera
  else none

/-- `double_suffix_parser`: `double` followed by a magnitude letter. -/
def pSuffix (cs : List Char) : Option (Block × List Char) :=
  match double cs with
  | some (q, c :: r) =>
      (match suffixDim c with
       | some d => some (.NumberSuffix q d, r)
       | none => none)
  | _ => none

/-- `double_parser`: bare `double`, yielding `Number`. -/
def pNumber (cs : List Char) : Option (Block × List Char) :=
  (double cs).map (fun p => (Block.Number p.1, p.2))

/-- `try_parsers`: `nom::branch::alt` over the six parsers in source order. -/
def try_parsers (cs : List Char) : Option (Block × List Char) :=
  (pPlus cs) <|> (pMinus cs) <|> (pPM cs) <|> (pPM2 cs) <|> (pSuffix cs) <|> (pNumber cs)

/-- `nom::character::complete::space1` characters. -/
def isNomSpace (c : Char) : Bool := c == ' ' || c == '\t'

/-- `space1`: one or more spaces/tabs. -/
def space1 (cs : List Char) : Option (List Char) :=
  match cs with
  | [] => none
  | c :: t => if isNomSpace c then some (t.dropWhile (fun d => isNomSpace d)) else none

/-- Iteration of `separated_list1 (space1, try_parsers)` after the first item:
stops (returning the input as it was before the separator) whenever the
separator or the next item fails.  `fuel` only bounds recursion; each round
consumes at least two characters, so `rest.length` rounds always suffice. -/
def sepLoop : ℕ → List Char → List Block → List Char × List Block
  | 0, cs, acc => (cs, acc)
  | Nat.succ f, cs, acc =>
      match space1 cs with
      | none => (cs, acc)
      | some rest =>
          match try_parsers rest with
          | none => (cs, acc)
          | some (b, rest2) => sepLoop f rest2 (acc ++ [b])

/-- `parse_blocks`: `separated_list1(space1, try_parsers)`; `none` models a
`nom` error (no first token). -/
def parse_blocks (cs : List Char) : Option (List Char × List Block) :=
  match try_parsers cs with
  | none => none
  | some (b, rest) => some (sepLoop rest.length rest [b])

/-- One step of the block fold shared by the four `FromStr` impls: numeric
blocks overwrite the running nominal value, tolerance blocks update their
side(s). -/
def foldStep (acc : Option ℚ × Option Tolerance) (b : Block) : Option ℚ × Option Tolerance :=
  match b with
  | .Number n => (some n, acc.2)
  | .NumberSuffix n d => (some (n * d.coefficient), acc.2)
  | .TolMinus t =>
      (acc.1, some (match acc.2 with
        | some tt => ⟨tt.plus, t⟩
        | none => ⟨0, t⟩))
  | .TolPlus t =>
      (acc.1, some (match acc.2 with
        | some tt => ⟨t, tt.minus⟩
        | none => ⟨t, 0⟩))
  | .TolPlusMinus t => (acc.1, some ⟨t, t⟩)

/-- The block fold of the `FromStr` impls, starting from `f64::NAN`
(modelled `none`) and no tolerance. -/
def block_fold (blocks : List Block) : Option ℚ × Option Tolerance :=
  blocks.foldl foldStep (none, none)

/-- Whitespace trimmed by Rust `str::trim` (ASCII subset). -/
def isTrimSpace (c : Char) : Bool := c == ' ' || c == '\t' || c == '\n' || c == '\r'

/-- `str::trim`. -/
def trimList (cs : List Char) : List Char :=
  ((cs.dropWhile (fun c => isTrimSpace c)).reverse.dropWhile (fun c => isTrimSpace c)).reverse

/-- The `FromStr` implementation shared verbatim by `Voltage`, `Current`,
`Resistance` and `Power`: trim, reject empty input, tokenize, reject leftover
input, fold the blocks.  When `parse_blocks` itself errors (no first token),
the source stores `IncorrectInput(e.to_string())` with `nom`'s error display;
that display string is modelled by the unparsed input text. -/
def from_str (s : String) : Except ParserError Quantity :=
  let t := trimList s.data
  if t.isEmpty then .error .emptyInput
  else
    match parse_blocks t with
    | none => .error (.incorrectInput (String.mk t))
    | some (rest, blocks) =>
        if rest.isEmpty then
          let f := block_fold blocks
          .ok ⟨f.1, f.2⟩
        else .error (.incorrectInput (String.mk rest))

/-! ## Ohm's-Law solver (`ohm_law/mod.rs`) -/

/-- `CalcType`. -/
inductive CalcType where
  | CNone | VCRP | VRCP | VPCR | CRVP | CPVR | RPVC
deriving DecidableEq, Repr

/-- `FieldsEnable`. -/
structure FieldsEnable where
  voltage : Bool
  current : Bool
  resistance : Bool
  power : Bool
deriving DecidableEq, Repr

/-- `FieldsEnable::default`: all fields editable. -/
def FieldsEnable.default : FieldsEnable := ⟨true, true, true, true⟩

/-- `OhmData`: latest parse outcome of each field. -/
structure OhmData where
  voltage : Except ParserError Quantity
  current : Except ParserError Quantity
  resistance : Except ParserError Quantity
  power : Except ParserError Quantity
deriving DecidableEq, Repr

/-- `OhmData::default`: every field `EmptyInput`. -/
def OhmData.default : OhmData :=
  ⟨.error .emptyInput, .error .emptyInput, .error .emptyInput, .error .emptyInput⟩

/-- `OhmDataRaw`: raw field texts. -/
structure OhmDataRaw where
  voltage : String
  current : String
  resistance : String
  power : String
deriving DecidableEq, Repr

/-- `OhmDataRaw::default`. -/
def OhmDataRaw.default : OhmDataRaw := ⟨"", "", "", ""⟩

/-- `OhmLaw` scene state. -/
structure OhmLaw where
  fields_enable : FieldsEnable
  data_raw : OhmDataRaw
  data : OhmData
  calc_type : CalcType
deriving DecidableEq, Repr

/-- `OhmLaw::default`. -/
def OhmLaw.default : OhmLaw :=
  ⟨FieldsEnable.default, OhmDataRaw.default, OhmData.default, .CNone⟩

/-- `ohm_law::Message`. -/
inductive OhmMsg where
  | inputVoltageChanged : String → OhmMsg
  | inputCurrentChanged : String → OhmMsg
  | inputResistanceChanged : String → OhmMsg
  | inputPowerChanged : String → OhmMsg
deriving DecidableEq, Repr

/-- The `match message` head of `OhmLaw::update`: store the raw text and
re-parse the edited field. -/
def OhmLaw.applyMsg (st : OhmLaw) : OhmMsg → OhmLaw
  | .inputVoltageChanged s =>
      { st with data_raw := { st.data_raw with voltage := s },
                data := { st.data with voltage := from_str s } }
  | .inputCurrentChanged s =>
      { st with data_raw := { st.data_raw with current := s },
                data := { st.data with current := from_str s } }
  | .inputResistanceChanged s =>
      { st with data_raw := { st.data_raw with resistance := s },
                data := { st.data with resistance := from_str s } }
  | .inputPowerChanged s =>
      { st with data_raw := { st.data_raw with power := s },
                data := { st.data with power := from_str s } }

/-- A field is "filled" iff its raw text is non-blank and its parse
succeeded (`determine_calctype`). -/
def filled (raw : String) (d : Except ParserError Quantity) : Bool :=
  !(trimList raw.data).isEmpty &&
    (match d with
     | .ok _ => true
     | .error _ => false)

/-- `OhmLaw::determine_calctype`: pair classification in source priority
order. -/
def OhmLaw.determine_calctype (st : OhmLaw) : OhmLaw :=
  let v := filled st.data_raw.voltage st.data.voltage
  let c := filled st.data_raw.current st.data.current
  let r := filled st.data_raw.resistance st.data.resistance
  let p := filled st.data_raw.power st.data.power
  { st with calc_type :=
      if v && c then .VCRP
      else if v && r then .VRCP
      else if v && p then .VPCR
      else if c && r then .CRVP
      else if c && p then .CPVR
      else if r && p then .RPVC
      else .CNone }

/-- `OhmLaw::update_field_accessibility`: lock the solved-for fields and clear
their raw text; reset all locks when no pair is classified. -/
def OhmLaw.update_field_accessibility (st : OhmLaw) : OhmLaw :=
  match st.calc_type with
  | .VCRP =>
      { st with
        fields_enable := { st.fields_enable with resistance := false, power := false },
        data_raw := { st.data_raw with resistance := "", power := "" } }
  | .VRCP =>
      { st with
        fields_enable := { st.fields_enable with current := false, power := false },
        data_raw := { st.data_raw with current := "", power := "" } }
  | .VPCR =>
      { st with
        fields_enable := { st.fields_enable with current := false, resistance := false },
        data_raw := { st.data_raw with current := "", resistance := "" } }
  | .CRVP =>
      { st with
        fields_enable := { st.fields_enable with voltage := false, power := false },
        data_raw := { st.data_raw with voltage := "", power := "" } }
  | .CPVR =>
      { st with
        fields_enable := { st.fields_enable with voltage := false, resistance := false },
        data_raw := { st.data_raw with resistance := "", voltage := "" } }
  | .RPVC =>
      { st with
        fields_enable := { st.fields_enable with voltage := false, current := false },
        data_raw := { st.data_raw with voltage := "", current := "" } }
  | .CNone => { st with fields_enable := FieldsEnable.default }

/-- `OhmLaw::calculating`, parameterized by the square root `sq` used in the
`(R,P)` branch (the source calls `f64::sqrt`; there the `power.value /
resistance.value` quotient is a raw `f64` division, not the panicking algebra
division).  `none` models a `panic!` raised by a zero-divisor algebra
division. -/
def OhmLaw.calculating (sq : ℚ → ℚ) (st : OhmLaw) : Option OhmLaw :=
  match st.calc_type with
  | .CNone => some st
  | .VCRP =>
      match st.data.voltage, st.data.current with
      | .ok v, .ok c =>
          (voltage_div_current v c).map (fun r =>
            { st with data := { st.data with
                resistance := .ok r, power := .ok (voltage_mul_current v c) } })
      | _, _ => some st
  | .VRCP =>
      match st.data.voltage, st.data.resistance with
      | .ok v, .ok r =>
          (voltage_div_resistance v r).map (fun c =>
            { st with data := { st.data with
                current := .ok c, power := .ok (voltage_mul_current v c) } })
      | _, _ => some st
  | .VPCR =>
      match st.data.voltage, st.data.power with
      | .ok v, .ok p =>
          (power_div_voltage p v).bind (fun c =>
            (voltage_div_current v c).map (fun r =>
              { st with data := { st.data with
                  current := .ok c, resistance := .ok r } }))
      | _, _ => some st
  | .CRVP =>
      match st.data.resistance, st.data.current with
      | .ok r, .ok c =>
          let v := current_mul_resistance c r
          some { st with data := { st.data with
              voltage := .ok v, power := .ok (voltage_mul_current v c) } }
      | _, _ => some st
  | .CPVR =>
      match st.data.power, st.data.current with
      | .ok p, .ok c =>
          (power_mul_current p c).bind (fun v =>
            (voltage_div_current v c).map (fun r =>
              { st with data := { st.data with
                  voltage := .ok v, resistance := .ok r } }))
      | _, _ => some st
  | .RPVC =>
      match st.data.power, st.data.resistance with
      | .ok p, .ok r =>
          some { st with data := { st.data with
              voltage := .ok ⟨(fmul p.value r.value).map sq, none⟩,
              current := .ok ⟨(fdiv p.value r.value).map sq, none⟩ } }
      | _, _ => some st

/-- The total part of `OhmLaw::update`: store the parse, classify, update
field accessibility. -/
def OhmLaw.step1 (st : OhmLaw) (m : OhmMsg) : OhmLaw :=
  ((st.applyMsg m).determine_calctype).update_field_accessibility

/-- `OhmLaw::update`: `step1` followed by `calculating` (which may panic). -/
def OhmLaw.update (st : OhmLaw) (sq : ℚ → ℚ) (m : OhmMsg) : Option OhmLaw :=
  OhmLaw.calculating sq (st.step1 m)

/-! ## Voltage-divider solver (`voltage_divider/mod.rs`) -/

/-- `Leg`. -/
structure Leg where
  resistance_raw : String
  voltage_raw : String
  voltage : Except ParserError Quantity
  current : Except ParserError Quantity
  resistance : Except ParserError Quantity
  power : Except ParserError Quantity
deriving DecidableEq, Repr

/-- `Leg::default`: empty raw texts, every outcome `EmptyInput`. -/
def Leg.default : Leg :=
  ⟨"", "", .error .emptyInput, .error .emptyInput, .error .emptyInput, .error .emptyInput⟩

/-- `VoltageDivider` scene state. -/
structure VoltageDivider where
  legs : List Leg
deriving DecidableEq, Repr

/-- `VoltageDivider::default`: two default legs. -/
def VoltageDivider.default : VoltageDivider := ⟨[Leg.default, Leg.default]⟩

/-- `voltage_divider::Message`. -/
inductive DivMsg where
  | inputVoltageChanged : ℕ → String → DivMsg
  | inputResistanceChanged : ℕ → String → DivMsg
  | legAdd : DivMsg
  | legDelete : ℕ → DivMsg
deriving DecidableEq, Repr

/-- The `match message` head of `VoltageDivider::update`.  `self.legs[id]`
indexing and `Vec::remove(id)` panic when `id` is out of bounds; the panic is
modelled by `none`. -/
def applyDivMsg (legs : List Leg) : DivMsg → Option (List Leg)
  | .inputResistanceChanged id s =>
      if h : id < legs.length then
        some (legs.set id
          { legs.get ⟨id, h⟩ with resistance_raw := s, resistance := from_str s })
      else none
  | .inputVoltageChanged id s =>
      if h : id < legs.length then
        some (legs.set id
          { legs.get ⟨id, h⟩ with voltage_raw := s, voltage := from_str s })
      else none
  | .legAdd => some (legs ++ [Leg.default])
  | .legDelete id =>
      if id < legs.length then some (legs.eraseIdx id) else none

/-- The cleanup loop of `VoltageDivider::update`: a leg whose raw voltage
(resp. resistance) text is empty has its voltage (resp. resistance) together
with power and current reset to `EmptyInput`. -/
def cleanupLeg (l : Leg) : Leg :=
  let l1 :=
    if l.voltage_raw.isEmpty then
      { l with voltage := .error .emptyInput, power := .error .emptyInput,
               current := .error .emptyInput }
    else l
  if l1.resistance_raw.isEmpty then
    { l1 with resistance := .error .emptyInput, power := .error .emptyInput,
              current := .error .emptyInput }
  else l1

/-- Cleanup applied to every leg. -/
def cleanup (legs : List Leg) : List Leg := legs.map cleanupLeg

/-- Message dispatch followed by cleanup - everything of
`VoltageDivider::update` that precedes the solve. -/
def legsAfterInput (st : VoltageDivider) (m : DivMsg) : Option (List Leg) :=
  (applyDivMsg st.legs m).map cleanup

/-- Accumulator of the first reverse walk of `VoltageDivider::update`:
`v1` (top voltage), `v2` (bottom voltage), `r_sum`, `empty_fields`. -/
structure Pass1St where
  v1 : Option Quantity
  v2 : Option Quantity
  r_sum : Option Quantity
  empty_fields : Bool
deriving DecidableEq, Repr

/-- One leg of the first reverse walk, matching on
`(leg.resistance, leg.voltage)` exactly as the source does. -/
def pass1Step (s : Pass1St) (l : Leg) : Pass1St :=
  match l.resistance, l.voltage with
  | .error _, .error _ => ⟨none, none, none, true⟩
  | .ok r, .ok v =>
      { s with v2 := some v,
               r_sum := some (match s.r_sum with
                 | some rr => resistance_add r rr
                 | none => r) }
  | .error _, .ok v => { s with v1 := some v }
  | .ok r, .error _ =>
      if s.v2.isNone then
        { s with r_sum := some (match s.r_sum with
            | some rr => resistance_add r rr
            | none => r) }
      else s

/-- The first reverse walk over the legs (last index to first). -/
def pass1 (legs : List Leg) : Pass1St :=
  legs.reverse.foldl pass1Step ⟨none, none, none, false⟩

/-- Total chain current: `Some((v2 - v1) / r_sum)` when `v1`/`v2`/`r_sum` are
available and no fully-unknown leg broke the chain; `v1` defaults to
`Voltage::default()` when never set.  Outer `none` models the division panic
(`r_sum` nominal exactly zero); inner `none` is "current undetermined". -/
def chainCurrentOf (s : Pass1St) : Option (Option Quantity) :=
  match s.v2, s.r_sum with
  | some v2, some rs =>
      if s.empty_fields then some none
      else
        match calculate_division_with_tolerance
            (voltage_sub v2 (s.v1.getD Quantity.default)) rs with
        | some c => some (some c)
        | none => none
  | _, _ => some none

/-- The chain current computed from the legs (composition of the walk and the
division step above). -/
def chainCurrent (legs : List Leg) : Option (Option Quantity) :=
  chainCurrentOf (pass1 legs)

/-- The second reverse walk, processing a reversed leg list with the carried
`pre_voltage`; runs only when the chain current is determined.  `none` models
the `(voltage - pre_voltage) / current` division panic. -/
def pass2go (c : Quantity) (pre : Quantity) : List Leg → Option (List Leg)
  | [] => some []
  | l :: t =>
      match l.voltage, l.resistance with
      | .ok v, .error _ =>
          (calculate_division_with_tolerance (voltage_sub v pre) c).bind (fun r =>
            (pass2go c v t).map (fun t2 =>
              { l with resistance := .ok r, current := .ok c } :: t2))
      | .ok v, .ok _ =>
          (pass2go c v t).map (fun t2 => { l with current := .ok c } :: t2)
      | .error _, .ok r =>
          let v := voltage_add (current_mul_resistance c r) pre
          (pass2go c v t).map (fun t2 =>
            { l with voltage := .ok v, current := .ok c } :: t2)
      | .error _, .error _ =>
          (pass2go c pre t).map (fun t2 => l :: t2)

/-- The second reverse walk over the legs in scene order. -/
def pass2 (c : Quantity) (legs : List Leg) : Option (List Leg) :=
  (pass2go c Quantity.default legs.reverse).map List.reverse

/-- `VoltageDivider::update`.  When the chain current is undetermined the
second walk is skipped entirely (the `(_, None, _)` arm of the source's match
is inside `if current.is_some()` and therefore dead code), so the legs keep
whatever current fields the cleanup left them. -/
def VoltageDivider.update (st : VoltageDivider) (m : DivMsg) : Option VoltageDivider :=
  (legsAfterInput st m).bind (fun legs =>
    (chainCurrent legs).bind (fun copt =>
      match copt with
      | some c => (pass2 c legs).map (fun l2 => ⟨l2⟩)
      | none => some ⟨legs⟩))

/-! ## Spec-side predicates and concrete edit chains used by the claims -/

/-- `sq` agrees with the real square root at the single point `x`. -/
def sqrtOkAt (sq : ℚ → ℚ) (x : ℚ) : Prop :=
  0 ≤ sq x ∧ sq x * sq x = x

/-- The divisor nominal values that make `OhmLaw::calculating` panic, per
classified pair: the `V/I` divisor for `(V,I)`, the `V/R` divisor for `(V,R)`,
the `P/V` divisor or a zero quotient current for `(V,P)`, and the `P/I`
divisor for `(I,P)`.  `(I,R)`, `(R,P)` and the unclassified case never
divide through the panicking algebra division. -/
def ohmZeroDiv (st : OhmLaw) : Prop :=
  match st.calc_type with
  | .VCRP => ∃ v c, st.data.voltage = .ok v ∧ st.data.current = .ok c ∧ c.value = some 0
  | .VRCP => ∃ v r, st.data.voltage = .ok v ∧ st.data.resistance = .ok r ∧ r.value = some 0
  | .VPCR => ∃ v p, st.data.voltage = .ok v ∧ st.data.power = .ok p ∧
      (v.value = some 0 ∨ p.value = some 0)
  | .CPVR => ∃ p c, st.data.power = .ok p ∧ st.data.current = .ok c ∧ c.value = some 0
  | _ => False

/-- A divider message whose leg index is out of range (Rust `Vec` indexing /
`Vec::remove` panic). -/
def badIndex (st : VoltageDivider) : DivMsg → Prop
  | .inputVoltageChanged id _ => st.legs.length ≤ id
  | .inputResistanceChanged id _ => st.legs.length ≤ id
  | .legDelete id => st.legs.length ≤ id
  | .legAdd => False

/-- Pass 1 produced an unbroken chain with a known bottom voltage but an
accumulated resistance of exactly zero nominal - the `(v2 - v1) / r_sum`
division panics. -/
def rsumZero (legs : List Leg) : Prop :=
  (pass1 legs).empty_fields = false ∧ (pass1 legs).v2.isSome = true ∧
    ∃ rs, (pass1 legs).r_sum = some rs ∧ rs.value = some 0

/-- Claim C8's reading of `try_parsers`, written from the spec's words: try
the six interpretations in priority order and return the first one that
consumes the entire token. -/
def fullOf (p : List Char → Option (Block × List Char)) (cs : List Char) : Option Block :=
  match p cs with
  | some pr => if pr.2.isEmpty then some pr.1 else none
  | none => none

/-- First interpretation, in the claimed priority order, that consumes the
entire token (spec-side definition for the refinement comparison of C8). -/
def firstFullMatch (cs : List Char) : Option Block :=
  (fullOf pPlus cs) <|> (fullOf pMinus cs) <|> (fullOf pPM cs) <|> (fullOf pPM2 cs)
    <|> (fullOf pSuffix cs) <|> (fullOf pNumber cs)

/-- Square root stub used by concrete edit chains that never reach the
`(R,P)` branch. -/
def sqStub : ℚ → ℚ := fun _ => 0

/-- Square root table valid at `1` (used by the C1 counterexample, where the
code computes `f64::sqrt(1.0) = 1.0` exactly). -/
def sqOne : ℚ → ℚ := fun x => if x = 1 then 1 else 0

/-- Edit chain for C3: fill `V=10`, fill `I=2` (solving R and P), then clear
the current field. -/
def c3chain : Option OhmLaw :=
  (OhmLaw.default.update sqStub (.inputVoltageChanged "10")).bind (fun s =>
    (s.update sqStub (.inputCurrentChanged "2")).bind (fun s2 =>
      s2.update sqStub (.inputCurrentChanged "")))

/-- Edit chain for C1's counterexample: fill `R=-1` then `P=-1`, classifying
the `(R,P)` pair with negative nominals. -/
def c1chain : Option OhmLaw :=
  (OhmLaw.default.update sqOne (.inputResistanceChanged "-1")).bind (fun s =>
    s.update sqOne (.inputPowerChanged "-1"))

/-- Edit chain for C5: make the ground leg fully known (`R=1`, `V=1`) and give
the supply leg `R=1`, so the chain solves and every leg ends with known
voltage and current. -/
def c5chain : Option VoltageDivider :=
  (VoltageDivider.default.update (.inputResistanceChanged 1 "1")).bind (fun s =>
    (s.update (.inputVoltageChanged 1 "1")).bind (fun s2 =>
      s2.update (.inputResistanceChanged 0 "1")))

/-- Edit chain for C6: fully determine both legs (currents become `Ok`), then
add a fresh empty leg, which leaves the chain current undetermined. -/
def c6chain : Option VoltageDivider :=
  (VoltageDivider.default.update (.inputResistanceChanged 0 "1")).bind (fun s =>
    (s.update (.inputVoltageChanged 0 "2")).bind (fun s2 =>
      (s2.update (.inputResistanceChanged 1 "1")).bind (fun s3 =>
        (s3.update (.inputVoltageChanged 1 "1")).bind (fun s4 =>
          s4.update .legAdd))))

/-- Leg count expected after one divider message: append adds one, removal
subtracts one, field edits keep the count. -/
def expectedLen (n : ℕ) : DivMsg → ℕ
  | .legAdd => n + 1
  | .legDelete _ => n - 1
  | _ => n

/-- Ohm state just before the C2 witness edit: voltage field holds `10`. -/
def ohmV10 : OhmLaw :=
  { fields_enable := FieldsEnable.default,
    data_raw := ⟨"10", "", "", ""⟩,
    data := ⟨.ok ⟨some 10, none⟩, .error .emptyInput, .error .emptyInput, .error .emptyInput⟩,
    calc_type := .CNone }

/-- Concrete state with `V = 10`, `I = 2` and the `(V,I)` pair classified -
input of the C1 witness. -/
def ohmVC : OhmLaw :=
  { fields_enable := ⟨true, true, false, false⟩,
    data_raw := ⟨"10", "2", "", ""⟩,
    data := ⟨.ok ⟨some 10, none⟩, .ok ⟨some 2, none⟩, .error .emptyInput, .error .emptyInput⟩,
    calc_type := .VCRP }

/-- The state the solver produces from `ohmVC`: `R = 5`, `P = 20`. -/
def ohmVC2 : OhmLaw :=
  { ohmVC with data := { ohmVC.data with
      resistance := .ok ⟨some 5, none⟩, power := .ok ⟨some 20, none⟩ } }

/-! # Theorems -/

/-! ## Claim C4: multiplication / division tolerance rules -/

/-- **C4.** For all quantities `a`, `b` with finite nominal values,
multiplication yields nominal `a.value * b.value` with tolerance
`plus = a.plus + b.plus`, `minus = a.minus + b.minus`, and division
(`b.value` nonzero) yields nominal `a.value / b.value` with the cross rule
`plus = a.plus + b.minus`, `minus = a.minus + b.plus`; a missing tolerance
counts as `0` on both sides and the result carries no tolerance iff neither
operand carries one. -/
theorem mul_div_tolerance_rules (a b : Quantity) (av bv : ℚ)
    (ha : a.value = some av) (hb : b.value = some bv) :
    ((calculate_multiplication_with_tolerance a b).value = some (av * bv)
      ∧ (calculate_multiplication_with_tolerance a b).tolerance =
          (match a.tolerance, b.tolerance with
           | none, none => none
           | _, _ => some ⟨plusD a + plusD b, minusD a + minusD b⟩)
      ∧ ((calculate_multiplication_with_tolerance a b).tolerance = none
            ↔ a.tolerance = none ∧ b.tolerance = none))
    ∧ (bv ≠ 0 →
        ∃ q, calculate_division_with_tolerance a b = some q
          ∧ q.value = some (av / bv)
          ∧ q.tolerance =
              (match a.tolerance, b.tolerance with
               | none, none => none
               | _, _ => some ⟨plusD a + minusD b, minusD a + plusD b⟩)
          ∧ (q.tolerance = none ↔ a.tolerance = none ∧ b.tolerance = none)) := by
  obtain ⟨va, ta⟩ := a
  obtain ⟨vb, tb⟩ := b
  simp only at ha hb
  subst ha hb
  constructor
  · cases ta <;> cases tb <;>
      simp [calculate_multiplication_with_tolerance, fmul, tolMM, plusD, minusD]
  · intro hbv
    have hguard : (some bv : Option ℚ) ≠ some 0 := by simp [hbv]
    cases ta <;> cases tb <;>
      simp [calculate_division_with_tolerance, fdiv, tolMM, plusD, minusD, hbv, hguard]

/-- **C4 witness**: the spec's concrete example, tolerances `(+5, -3.3)` and
`(+1, -2.5)` on nominals `300` and `150`. -/
theorem mul_div_tolerance_rules_witness :
    (calculate_multiplication_with_tolerance
        ⟨some 300, some ⟨5, 33/10⟩⟩ ⟨some 150, some ⟨1, 5/2⟩⟩).value = some 45000
    ∧ (calculate_multiplication_with_tolerance
        ⟨some 300, some ⟨5, 33/10⟩⟩ ⟨some 150, some ⟨1, 5/2⟩⟩).tolerance =
        some ⟨6, 29/5⟩
    ∧ ∃ q, calculate_division_with_tolerance
        ⟨some 300, some ⟨5, 33/10⟩⟩ ⟨some 150, some ⟨1, 5/2⟩⟩ = some q
        ∧ q.value = some 2 ∧ q.tolerance = some ⟨15/2, 43/10⟩ := by
  have h := mul_div_tolerance_rules
    ⟨some 300, some ⟨5, 33/10⟩⟩ ⟨some 150, some ⟨1, 5/2⟩⟩ 300 150 rfl rfl
  obtain ⟨⟨hmv, hmt, _⟩, hdiv⟩ := h
  obtain ⟨q, hq, hqv, hqt, _⟩ := hdiv (by norm_num)
  refine ⟨by rw [hmv]; norm_num, by rw [hmt]; norm_num [plusD, minusD],
    q, hq, by rw [hqv]; norm_num, by rw [hqt]; norm_num [plusD, minusD]⟩

/-! ## Claim C10: `Resistance * Current` computes current squared over
resistance -/

/-- **C10.** For every `Resistance` `r` with nonzero nominal and every
`Current` `c`, the operator `r * c` returns a `Power` whose nominal value is
`c.value * c.value / r.value` - the current squared divided by the resistance,
not the product of the operands - with the tolerance obtained by squaring the
current (doubling its sides) and then applying the division cross rule against
the resistance. -/
theorem resistance_mul_current_squares (r c : Quantity) (rv cv : ℚ)
    (hr : r.value = some rv) (hrz : rv ≠ 0) (hc : c.value = some cv) :
    ∃ p, resistance_mul_current r c = some p
      ∧ p.value = some (cv * cv / rv)
      ∧ p.tolerance =
          (match c.tolerance, r.tolerance with
           | none, none => none
           | _, _ => some ⟨plusD c + plusD c + minusD r, minusD c + minusD c + plusD r⟩) := by
  obtain ⟨vr, tr⟩ := r
  obtain ⟨vc, tc⟩ := c
  simp only at hr hc
  subst hr hc
  have hguard : (some rv : Option ℚ) ≠ some 0 := by simp [hrz]
  cases tc <;> cases tr <;>
    simp [resistance_mul_current, calculate_multiplication_with_tolerance,
      calculate_division_with_tolerance, fmul, fdiv, tolMM, plusD, minusD, hrz, hguard]

/-- **C10 witness**: `R = 4` (tolerance `(+2, -1)`), `I = 2` (no tolerance)
gives `P = 1`, which differs from the nominal product `8`. -/
theorem resistance_mul_current_squares_witness :
    (∃ p, resistance_mul_current ⟨some 4, some ⟨2, 1⟩⟩ ⟨some 2, none⟩ = some p
      ∧ p.value = some 1 ∧ p.tolerance = some ⟨1, 2⟩)
    ∧ ((2 : ℚ) * 2 / 4 ≠ 4 * 2) := by
  have h := resistance_mul_current_squares ⟨some 4, some ⟨2, 1⟩⟩ ⟨some 2, none⟩ 4 2
    rfl (by norm_num) rfl
  obtain ⟨p, hp, hv, ht⟩ := h
  exact ⟨⟨p, hp, by rw [hv]; norm_num, by rw [ht]; norm_num [plusD, minusD]⟩, by norm_num⟩


/-! ## Claim C1 counterexample: the (R,P) branch with negative nominals -/

/-- **C1 counterexample.**  Editing `R := "-1"` then `P := "-1"` classifies the
`(R,P)` pair; the solver returns `V = 1`, `I = 1` (since `sqrt(1) = 1` exactly
in `f64` as well), and then `V = I * R` fails (`1 = 1 * (-1)` is false), as
does `P = V * I`. -/
theorem ohm_rp_negative_breaks_identities :
    c1chain.map (fun s => (s.data.voltage, s.data.current, s.data.resistance))
      = some (.ok ⟨some 1, none⟩, .ok ⟨some 1, none⟩, .ok ⟨some (-1), none⟩)
    ∧ ¬((1 : ℚ) = 1 * (-1)) ∧ ¬((-1 : ℚ) = 1 * 1) :=
  ⟨rfl, by norm_num, by norm_num⟩

/-! ## Claim C2 counterexample: an edit that panics -/

/-- **C2 counterexample.**  With `V = "10"` stored, the single edit
`I := "0"` classifies `(V,I)` and the solve computes `R = V / I`, whose
divisor has nominal exactly `0`: `calculate_division_with_tolerance` panics,
so the edit terminates abnormally instead of always succeeding. -/
theorem ohm_zero_current_edit_panics :
    (OhmLaw.default.update sqStub (.inputVoltageChanged "10")).bind
      (fun s => s.update sqStub (.inputCurrentChanged "0")) = none := rfl

/-! ## Claim C3: outputs when no pair is classified -/

/-- **C3 counterexample.**  Fill `V=10`, fill `I=2` (R and P get computed),
then clear the current field: classification returns to none, but the
resistance and power outcomes remain the stale computed `Ok` values (with the
resistance raw text empty, i.e. not user-filled) instead of `EmptyInput`. -/
theorem ohm_stale_outputs_after_unclassify :
    c3chain.map (fun s => (s.calc_type, s.data_raw.resistance, s.data.resistance, s.data.power))
      = some (.CNone, "", .ok ⟨some 5, none⟩, .ok ⟨some 20, none⟩) := rfl

/-- **C3 amended.**  When an edit leaves no solvable pair classified,
`calculating` does nothing at all: the update succeeds and returns the state
exactly as the parse/classify/accessibility stage left it, so all four
outcomes keep their previous values (they are `EmptyInput` only if they
already were, e.g. from the initial state). -/
theorem ohm_none_pair_leaves_outputs (sq : ℚ → ℚ) (st : OhmLaw) (m : OhmMsg)
    (h : (OhmLaw.step1 st m).calc_type = CalcType.CNone) :
    OhmLaw.update st sq m = some (OhmLaw.step1 st m) := by
  simp [OhmLaw.update, OhmLaw.calculating, h]

/-- **C3 amended witness**: the first edit `V := "10"` classifies nothing and
the update returns the parse stage unchanged. -/
theorem ohm_none_pair_leaves_outputs_witness :
    (OhmLaw.step1 OhmLaw.default (.inputVoltageChanged "10")).calc_type = CalcType.CNone
    ∧ OhmLaw.update OhmLaw.default sqStub (.inputVoltageChanged "10")
        = some (OhmLaw.step1 OhmLaw.default (.inputVoltageChanged "10")) :=
  ⟨rfl, ohm_none_pair_leaves_outputs sqStub OhmLaw.default _ rfl⟩

/-! ## Claim C5: per-leg power in the voltage divider -/

/-- **C5 evaluation at the failing input.**  After edits `R2 := "1"`,
`U2 := "1"`, `R1 := "1"`, both legs end with voltage and current known
(`isOk = true`), yet both legs' power outcome is `EmptyInput`:
`VoltageDivider::update` never assigns `leg.power` (it only resets it in the
cleanup loop), although the scene's own help text promises the power
dissipated by each resistor among the results. -/
theorem divider_leg_power_never_assigned :
    c5chain.map (fun st => st.legs.map (fun l => (l.voltage.isOk, l.current.isOk, l.power)))
      = some [(true, true, .error .emptyInput), (true, true, .error .emptyInput)] := rfl

/-! ## Claim C6: leg currents when the chain current is undetermined -/

/-- **C6 counterexample.**  Fully determine both legs (their current fields
become `Ok`), then add a fresh empty leg: pass 1 marks the chain broken and
the chain current is undetermined, but pass 2 is skipped entirely, so legs 0
and 1 keep their stale `Ok` currents - only the new leg holds `EmptyInput`. -/
theorem divider_stale_currents_when_undetermined :
    c6chain.map (fun st => (chainCurrent st.legs, st.legs.map (fun l => l.current.isOk)))
      = some (some none, [true, true, false]) := rfl

/-- **C6 amended.**  When the chain current is undetermined, the update
succeeds and returns the legs exactly as the cleanup stage left them: no
current field is forced to `EmptyInput` by the solve (fields are `EmptyInput`
only where the cleanup reset them, i.e. where raw texts are empty). -/
theorem divider_pass2_skipped_when_undetermined (st : VoltageDivider) (m : DivMsg)
    (legs : List Leg) (h1 : legsAfterInput st m = some legs)
    (h2 : chainCurrent legs = some Option.none) :
    VoltageDivider.update st m = some ⟨legs⟩ := by
  simp [VoltageDivider.update, h1, h2]

/-- **C6 amended witness**: adding a leg to the default scene leaves the chain
current undetermined and the update returns the cleaned legs unchanged. -/
theorem divider_pass2_skipped_witness :
    legsAfterInput VoltageDivider.default .legAdd = some [Leg.default, Leg.default, Leg.default]
    ∧ chainCurrent [Leg.default, Leg.default, Leg.default] = some Option.none
    ∧ VoltageDivider.update VoltageDivider.default .legAdd
        = some ⟨[Leg.default, Leg.default, Leg.default]⟩ :=
  ⟨rfl, rfl, divider_pass2_skipped_when_undetermined _ _ _ rfl rfl⟩

/-! ## Claim C7 counterexample: removing a structural leg -/

/-- **C7 counterexample.**  `LegDelete(0)` on the default two-leg scene is not
a no-op: the update removes the leg and the list length drops to `1 < 2`.
(The `index < 2` restriction lives only in the view, which renders no delete
button for the first two legs.) -/
theorem divider_delete_first_leg_shrinks :
    (VoltageDivider.default.update (.legDelete 0)).map (fun st => st.legs.length)
      = some 1 := rfl

/-! ## Claim C9 counterexample: a negative parsed tolerance -/

/-- **C9 counterexample.**  The field text `"1 +-5%"` parses successfully:
the plus-tolerance parser consumes `+`, then `double` consumes the signed
literal `-5`, so the resulting tolerance has `plus = -5 < 0`. -/
theorem tolerance_plus_negative_via_signed_literal :
    from_str "1 +-5%" = .ok ⟨some 1, some ⟨-5, 0⟩⟩ ∧ ¬(0 ≤ (-5 : ℚ)) :=
  ⟨rfl, by norm_num⟩

/-! ## Claim C2 amended: the only abnormal terminations are zero-divisor
divisions and out-of-range leg indices -/

theorem calc_div_eq_none (a b : Quantity) :
    calculate_division_with_tolerance a b = none ↔ b.value = some 0 := by
  constructor
  · intro h
    unfold calculate_division_with_tolerance at h
    split at h
    · assumption
    · split at h <;> cases h
  · intro h
    unfold calculate_division_with_tolerance
    simp [h]

theorem calc_div_value (a b q : Quantity)
    (h : calculate_division_with_tolerance a b = some q) :
    q.value = fdiv a.value b.value := by
  unfold calculate_division_with_tolerance at h
  split at h
  · cases h
  · split at h <;> cases h <;> rfl

theorem fdiv_eq_some_zero (x y : Option ℚ) (h : fdiv x y = some 0) : x = some 0 := by
  cases x with
  | none => cases y <;> simp [fdiv] at h
  | some a =>
      cases y with
      | none => simp [fdiv] at h
      | some b =>
          simp only [fdiv] at h
          split at h
          · cases h
          · rename_i hb
            simp only [Option.some.injEq] at h
            rcases div_eq_zero_iff.mp h with h1 | h2
            · rw [h1]
            · exact absurd h2 hb

theorem calculating_none_zeroDiv (sq : ℚ → ℚ) (st : OhmLaw)
    (h : OhmLaw.calculating sq st = none) : ohmZeroDiv st := by
  unfold OhmLaw.calculating at h
  unfold ohmZeroDiv
  cases hct : st.calc_type <;> rw [hct] at h
  case CNone => cases h
  case VCRP =>
      rcases hv : st.data.voltage with e | v <;> rcases hc : st.data.current with e2 | c <;>
        rw [hv, hc] at h <;> dsimp only at h
      · cases h
      · cases h
      · cases h
      · have h2 := Option.map_eq_none'.mp h
        exact ⟨v, c, rfl, rfl, (calc_div_eq_none v c).mp h2⟩
  case VRCP =>
      rcases hv : st.data.voltage with e | v <;> rcases hr : st.data.resistance with e2 | r <;>
        rw [hv, hr] at h <;> dsimp only at h
      · cases h
      · cases h
      · cases h
      · have h2 := Option.map_eq_none'.mp h
        exact ⟨v, r, rfl, rfl, (calc_div_eq_none v r).mp h2⟩
  case VPCR =>
      rcases hv : st.data.voltage with e | v <;> rcases hp : st.data.power with e2 | p <;>
        rw [hv, hp] at h <;> dsimp only at h
      · cases h
      · cases h
      · cases h
      · rcases hd : power_div_voltage p v with _ | c <;> rw [hd] at h
        · exact ⟨v, p, rfl, rfl, Or.inl ((calc_div_eq_none p v).mp hd)⟩
        · simp only [Option.some_bind] at h
          have h2 := Option.map_eq_none'.mp h
          have hc0 : c.value = some 0 := (calc_div_eq_none v c).mp h2
          have hcv := calc_div_value p v c hd
          rw [hcv] at hc0
          exact ⟨v, p, rfl, rfl, Or.inr (fdiv_eq_some_zero _ _ hc0)⟩
  case CRVP =>
      rcases hr : st.data.resistance with e | r <;> rcases hc : st.data.current with e2 | c <;>
        rw [hr, hc] at h <;> dsimp only at h <;> cases h
  case CPVR =>
      rcases hp : st.data.power with e | p <;> rcases hc : st.data.current with e2 | c <;>
        rw [hp, hc] at h <;> dsimp only at h
      · cases h
      · cases h
      · cases h
      · rcases hd : power_mul_current p c with _ | v0 <;> rw [hd] at h
        · exact ⟨p, c, rfl, rfl, (calc_div_eq_none p c).mp hd⟩
        · simp only [Option.some_bind] at h
          have h2 := Option.map_eq_none'.mp h
          exact ⟨p, c, rfl, rfl, (calc_div_eq_none v0 c).mp h2⟩
  case RPVC =>
      rcases hp : st.data.power with e | p <;> rcases hr : st.data.resistance with e2 | r <;>
        rw [hp, hr] at h <;> dsimp only at h <;> cases h

theorem chainCurrentOf_none (s : Pass1St) (h : chainCurrentOf s = none) :
    s.empty_fields = false ∧ s.v2.isSome = true
      ∧ ∃ rs, s.r_sum = some rs ∧ rs.value = some 0 := by
  obtain ⟨v1, v2, rs, ef⟩ := s
  rcases v2 with _ | v2 <;> rcases rs with _ | rs <;>
    simp only [chainCurrentOf] at h <;> try cases h
  cases ef with
  | true => simp at h
  | false =>
      simp only [Bool.false_eq_true, if_false] at h
      rcases hd : calculate_division_with_tolerance
          (voltage_sub v2 (v1.getD Quantity.default)) rs with _ | c <;> rw [hd] at h
      · exact ⟨rfl, rfl, rs, rfl, (calc_div_eq_none _ rs).mp hd⟩
      · cases h

theorem chainCurrent_none_rsumZero (legs : List Leg)
    (h : chainCurrent legs = none) : rsumZero legs :=
  chainCurrentOf_none (pass1 legs) h

theorem pass2go_none_zero (c : Quantity) (legs : List Leg) :
    ∀ pre, pass2go c pre legs = none →
      c.value = some 0
      ∧ ∃ l, l ∈ legs ∧ l.voltage.isOk = true ∧ l.resistance.isOk = false := by
  induction legs with
  | nil => intro pre h; cases h
  | cons l t ih =>
      intro pre h
      rcases hv : l.voltage with e | v <;> rcases hr : l.resistance with e2 | r <;>
        simp only [pass2go, hv, hr] at h
      · obtain ⟨hc0, l2, hl2, hok⟩ := ih pre (Option.map_eq_none'.mp h)
        exact ⟨hc0, l2, List.mem_cons_of_mem _ hl2, hok⟩
      · obtain ⟨hc0, l2, hl2, hok⟩ := ih _ (Option.map_eq_none'.mp h)
        exact ⟨hc0, l2, List.mem_cons_of_mem _ hl2, hok⟩
      · rcases hd : calculate_division_with_tolerance (voltage_sub v pre) c with _ | r0 <;>
          rw [hd] at h
        · refine ⟨(calc_div_eq_none _ c).mp hd, l, List.mem_cons_self _ _, ?_, ?_⟩
          · rw [hv]; rfl
          · rw [hr]; rfl
        · simp only [Option.some_bind] at h
          obtain ⟨hc0, l2, hl2, hok⟩ := ih _ (Option.map_eq_none'.mp h)
          exact ⟨hc0, l2, List.mem_cons_of_mem _ hl2, hok⟩
      · obtain ⟨hc0, l2, hl2, hok⟩ := ih _ (Option.map_eq_none'.mp h)
        exact ⟨hc0, l2, List.mem_cons_of_mem _ hl2, hok⟩

theorem pass2_none_zero (c : Quantity) (legs : List Leg) (h : pass2 c legs = none) :
    c.value = some 0
    ∧ ∃ l, l ∈ legs ∧ l.voltage.isOk = true ∧ l.resistance.isOk = false := by
  simp only [pass2] at h
  obtain ⟨hc0, l, hl, hok⟩ :=
    pass2go_none_zero c legs.reverse Quantity.default (Option.map_eq_none'.mp h)
  exact ⟨hc0, l, List.mem_reverse.mp hl, hok⟩

/-- **C2 amended.**  A field edit always stores the new raw text and its parse
outcome; it terminates abnormally only when the triggered solve divides by a
quantity whose nominal value is exactly zero (Ohm's law: the classified pair's
divisor; divider: a zero accumulated resistance in pass 1 or a zero chain
current dividing a voltage drop in pass 2), or - for the divider - when the
message's leg index is out of range. -/
theorem edits_fail_only_on_zero_divisors :
    (∀ (sq : ℚ → ℚ) (st : OhmLaw) (m : OhmMsg),
        OhmLaw.update st sq m = none → ohmZeroDiv (OhmLaw.step1 st m))
    ∧ (∀ (st : VoltageDivider) (m : DivMsg),
        VoltageDivider.update st m = none →
          badIndex st m
          ∨ ∃ legs, legsAfterInput st m = some legs ∧
              (rsumZero legs
               ∨ ∃ c, chainCurrent legs = some (some c) ∧ c.value = some 0
                   ∧ ∃ l, l ∈ legs ∧ l.voltage.isOk = true ∧ l.resistance.isOk = false)) := by
  constructor
  · intro sq st m h
    exact calculating_none_zeroDiv sq _ h
  · intro st m h
    simp only [VoltageDivider.update] at h
    rcases ha : legsAfterInput st m with _ | legs <;> rw [ha] at h
    · left
      simp only [legsAfterInput] at ha
      have ha2 := Option.map_eq_none'.mp ha
      cases m with
      | inputVoltageChanged id s =>
          simp only [applyDivMsg] at ha2
          split at ha2
          · cases ha2
          · rename_i hid; exact Nat.le_of_not_lt hid
      | inputResistanceChanged id s =>
          simp only [applyDivMsg] at ha2
          split at ha2
          · cases ha2
          · rename_i hid; exact Nat.le_of_not_lt hid
      | legAdd => cases ha2
      | legDelete id =>
          simp only [applyDivMsg] at ha2
          split at ha2
          · cases ha2
          · rename_i hid; exact Nat.le_of_not_lt hid
    · simp only [Option.some_bind] at h
      rcases hcc : chainCurrent legs with _ | copt <;> rw [hcc] at h
      · exact Or.inr ⟨legs, rfl, Or.inl (chainCurrent_none_rsumZero legs hcc)⟩
      · simp only [Option.some_bind] at h
        cases copt with
        | none => cases h
        | some c =>
            obtain ⟨hc0, l, hl, hok⟩ := pass2_none_zero c legs (Option.map_eq_none'.mp h)
            exact Or.inr ⟨legs, rfl, Or.inr ⟨c, hcc, hc0, l, hl, hok⟩⟩

/-- **C2 amended witness**: with `V = 10` stored, the edit `I := "0"` panics
and indeed exhibits a zero divisor; the divider edit at leg index `5` of a
two-leg scene panics and indeed has an out-of-range index. -/
theorem edits_fail_only_on_zero_divisors_witness :
    ohmZeroDiv (OhmLaw.step1 ohmV10 (.inputCurrentChanged "0"))
    ∧ (badIndex VoltageDivider.default (.inputVoltageChanged 5 "x")
       ∨ ∃ legs, legsAfterInput VoltageDivider.default (.inputVoltageChanged 5 "x") = some legs ∧
           (rsumZero legs
            ∨ ∃ c, chainCurrent legs = some (some c) ∧ c.value = some 0
                ∧ ∃ l, l ∈ legs ∧ l.voltage.isOk = true ∧ l.resistance.isOk = false)) :=
  ⟨edits_fail_only_on_zero_divisors.1 sqStub ohmV10 (.inputCurrentChanged "0") rfl,
   edits_fail_only_on_zero_divisors.2 VoltageDivider.default (.inputVoltageChanged 5 "x") rfl⟩

/-! ## Claim C7 amended: length dynamics of the divider update -/

theorem applyDivMsg_length (legs : List Leg) (m : DivMsg) (legs2 : List Leg)
    (h : applyDivMsg legs m = some legs2) :
    legs2.length = expectedLen legs.length m
    ∧ (∀ id, m = DivMsg.legDelete id → id < legs.length) := by
  cases m with
  | inputVoltageChanged id s =>
      simp only [applyDivMsg] at h
      split at h
      · cases h; simp [expectedLen]
      · cases h
  | inputResistanceChanged id s =>
      simp only [applyDivMsg] at h
      split at h
      · cases h; simp [expectedLen]
      · cases h
  | legAdd =>
      simp only [applyDivMsg] at h
      cases h; simp [expectedLen]
  | legDelete id =>
      simp only [applyDivMsg] at h
      split at h
      case isTrue hid =>
        cases h
        constructor
        · simp [expectedLen, List.length_eraseIdx, hid]
        · intro i hi; cases hi; exact hid
      case isFalse hid => cases h

theorem pass2go_length (c : Quantity) (legs : List Leg) :
    ∀ (pre : Quantity) (legs2 : List Leg), pass2go c pre legs = some legs2 →
      legs2.length = legs.length := by
  induction legs with
  | nil => intro pre legs2 h; cases h; rfl
  | cons l t ih =>
      intro pre legs2 h
      rcases hv : l.voltage with e | v <;> rcases hr : l.resistance with e2 | r <;>
        simp only [pass2go, hv, hr] at h
      · rcases hp : pass2go c pre t with _ | t2 <;> rw [hp] at h
        · cases h
        · simp only [Option.map_some', Option.some.injEq] at h
          subst h
          simp [ih _ _ hp]
      · rcases hp : pass2go c _ t with _ | t2 <;> rw [hp] at h
        · cases h
        · simp only [Option.map_some', Option.some.injEq] at h
          subst h
          simp [ih _ _ hp]
      · rcases hd : calculate_division_with_tolerance (voltage_sub v pre) c
            with _ | r0 <;> rw [hd] at h
        · cases h
        · simp only [Option.some_bind] at h
          rcases hp : pass2go c v t with _ | t2 <;> rw [hp] at h
          · cases h
          · simp only [Option.map_some', Option.some.injEq] at h
            subst h
            simp [ih _ _ hp]
      · rcases hp : pass2go c v t with _ | t2 <;> rw [hp] at h
        · cases h
        · simp only [Option.map_some', Option.some.injEq] at h
          subst h
          simp [ih _ _ hp]

theorem pass2_length (c : Quantity) (legs legs2 : List Leg)
    (h : pass2 c legs = some legs2) : legs2.length = legs.length := by
  simp only [pass2] at h
  rcases hp : pass2go c Quantity.default legs.reverse with _ | l2 <;> rw [hp] at h
  · cases h
  · simp only [Option.map_some', Option.some.injEq] at h
    subst h
    have := pass2go_length c legs.reverse Quantity.default l2 hp
    simpa using this

/-- **C7 amended.**  The divider update never treats leg removal as a no-op:
whenever an update succeeds, `LegAdd` grows the leg list by one, `LegDelete`
shrinks it by one (so the list can drop below two legs), and field edits keep
the length; moreover a successful `LegDelete(id)` implies `id` was in range
(out-of-range indices panic instead of no-oping). -/
theorem divider_update_length_dynamics (st : VoltageDivider) (m : DivMsg)
    (st2 : VoltageDivider) (h : VoltageDivider.update st m = some st2) :
    st2.legs.length = expectedLen st.legs.length m
    ∧ (∀ id, m = DivMsg.legDelete id → id < st.legs.length) := by
  simp only [VoltageDivider.update, legsAfterInput] at h
  rcases ha : applyDivMsg st.legs m with _ | legs0 <;> rw [ha] at h
  · cases h
  · simp only [Option.map_some', Option.some_bind] at h
    have hlen : (cleanup legs0).length = legs0.length := by simp [cleanup]
    have hbase := applyDivMsg_length st.legs m legs0 ha
    rcases hcc : chainCurrent (cleanup legs0) with _ | copt <;> rw [hcc] at h
    · cases h
    · simp only [Option.some_bind] at h
      cases copt with
      | none =>
          dsimp only at h
          cases h
          exact ⟨by simpa [hlen] using hbase.1, hbase.2⟩
      | some c =>
          dsimp only at h
          rcases hp : pass2 c (cleanup legs0) with _ | l2 <;> rw [hp] at h
          · cases h
          · simp only [Option.map_some', Option.some.injEq] at h
            have hlen2 := pass2_length c (cleanup legs0) l2 hp
            rw [← h]
            exact ⟨by simp only [hlen2, hlen]; exact hbase.1, hbase.2⟩

/-- **C7 amended witness**: deleting leg 0 from the default scene succeeds and
leaves `2 - 1 = 1` leg, with the index in range. -/
theorem divider_update_length_dynamics_witness :
    VoltageDivider.update VoltageDivider.default (.legDelete 0) = some ⟨[Leg.default]⟩
    ∧ ([Leg.default] : List Leg).length = expectedLen VoltageDivider.default.legs.length (.legDelete 0)
    ∧ 0 < VoltageDivider.default.legs.length := by
  have h := divider_update_length_dynamics VoltageDivider.default (.legDelete 0)
    ⟨[Leg.default]⟩ rfl
  exact ⟨rfl, h.1, h.2 0 rfl⟩

/-! ## Claim C9 amended: non-negativity of folded tolerances -/

theorem foldStep_tol_nonneg (blocks : List Block) :
    ∀ (acc : Option ℚ × Option Tolerance),
      (∀ tol, acc.2 = some tol → 0 ≤ tol.plus ∧ 0 ≤ tol.minus) →
      (∀ t, Block.TolPlus t ∈ blocks → 0 ≤ t) →
      (∀ t, Block.TolMinus t ∈ blocks → 0 ≤ t) →
      (∀ t, Block.TolPlusMinus t ∈ blocks → 0 ≤ t) →
      ∀ v tol, blocks.foldl foldStep acc = (v, some tol) →
        0 ≤ tol.plus ∧ 0 ≤ tol.minus := by
  induction blocks with
  | nil =>
      intro acc hacc _ _ _ v tol h
      simp only [List.foldl_nil] at h
      exact hacc tol (by rw [h])
  | cons b bl ih =>
      intro acc hacc hp hm hpm v tol h
      simp only [List.foldl_cons] at h
      refine ih (foldStep acc b) ?_ (fun t ht => hp t (by simp [ht]))
        (fun t ht => hm t (by simp [ht])) (fun t ht => hpm t (by simp [ht])) v tol h
      intro tol2 htol2
      cases b with
      | Number n => exact hacc tol2 htol2
      | NumberSuffix n d => exact hacc tol2 htol2
      | TolMinus t =>
          simp only [foldStep] at htol2
          rcases hprev : acc.2 with _ | tt <;> rw [hprev] at htol2 <;> cases htol2
          · exact ⟨le_refl 0, hm t (by simp)⟩
          · exact ⟨(hacc tt hprev).1, hm t (by simp)⟩
      | TolPlus t =>
          simp only [foldStep] at htol2
          rcases hprev : acc.2 with _ | tt <;> rw [hprev] at htol2 <;> cases htol2
          · exact ⟨hp t (by simp), le_refl 0⟩
          · exact ⟨hp t (by simp), (hacc tt hprev).2⟩
      | TolPlusMinus t =>
          simp only [foldStep] at htol2
          cases htol2
          exact ⟨hpm t (by simp), hpm t (by simp)⟩

/-- **C9 amended.**  The minus-marker tokenizer always emits a non-negative
`TolMinus` payload (`number.abs()`), and the block fold keeps both tolerance
sides non-negative whenever every tolerance payload in the block list is
non-negative; so for every input whose tolerance literals carry no embedded
sign after the marker, a successful parse with a tolerance present has
`plus >= 0` and `minus >= 0`.  (Signed payloads after `+` or the plus-slash-minus
marker break this - see the counterexample.) -/
theorem tolerance_sides_nonneg_amended :
    (∀ cs b r, pMinus cs = some (b, r) → ∀ t, b = Block.TolMinus t → 0 ≤ t)
    ∧ (∀ blocks : List Block,
        (∀ t, Block.TolPlus t ∈ blocks → 0 ≤ t) →
        (∀ t, Block.TolMinus t ∈ blocks → 0 ≤ t) →
        (∀ t, Block.TolPlusMinus t ∈ blocks → 0 ≤ t) →
        ∀ v tol, block_fold blocks = (v, some tol) →
          0 ≤ tol.plus ∧ 0 ≤ tol.minus) := by
  constructor
  · intro cs b r h t hb
    subst hb
    cases cs with
    | nil => simp [pMinus] at h
    | cons c0 t0 =>
        simp only [pMinus] at h
        split at h
        · rcases hd : tagPercent (double t0) with _ | p <;> rw [hd] at h
          · cases h
          · simp only [Option.map_some', Option.some.injEq, Prod.mk.injEq] at h
            obtain ⟨h1, h2⟩ := h
            injection h1 with h1
            rw [← h1]
            exact abs_nonneg _
        · cases h
  · intro blocks hp hm hpm v tol h
    exact foldStep_tol_nonneg blocks (none, none) (by intro tol2 h2; cases h2)
      hp hm hpm v tol h

/-- **C9 amended witness**: the minus tokenizer on `"-5%"` yields `TolMinus 5`
with `5 >= 0`, and folding `[Number 1, TolPlus 5]` yields a tolerance with both
sides non-negative. -/
theorem tolerance_sides_nonneg_amended_witness :
    pMinus ("-5%".data) = some (Block.TolMinus 5, [])
    ∧ 0 ≤ (5 : ℚ)
    ∧ block_fold [Block.Number 1, Block.TolPlus 5] = (some 1, some ⟨5, 0⟩)
    ∧ 0 ≤ (⟨5, 0⟩ : Tolerance).plus ∧ 0 ≤ (⟨5, 0⟩ : Tolerance).minus := by
  have h1 := tolerance_sides_nonneg_amended.1 ("-5%".data) (Block.TolMinus 5) [] rfl 5 rfl
  have h2 := tolerance_sides_nonneg_amended.2 [Block.Number 1, Block.TolPlus 5]
    (by intro t ht; simp at ht; rw [ht]; norm_num)
    (by intro t ht; simp at ht)
    (by intro t ht; simp at ht)
    (some 1) ⟨5, 0⟩ rfl
  exact ⟨rfl, h1, rfl, h2⟩

/-! ## Claim C1: the six dispatch formulas and the Ohm identities -/

theorem calc_mul_value (a b : Quantity) :
    (calculate_multiplication_with_tolerance a b).value = fmul a.value b.value := by
  unfold calculate_multiplication_with_tolerance
  split <;> rfl

theorem calc_div_some_ne (a b q : Quantity)
    (h : calculate_division_with_tolerance a b = some q) : ¬ b.value = some 0 := by
  unfold calculate_division_with_tolerance at h
  split at h
  · cases h
  · rename_i hb; exact hb

theorem fdiv_some (a b : ℚ) (hb : b ≠ 0) : fdiv (some a) (some b) = some (a / b) := by
  simp [fdiv, hb]

theorem calc_div_some_value (a b q : Quantity) (av bv : ℚ)
    (h : calculate_division_with_tolerance a b = some q)
    (ha : a.value = some av) (hb : b.value = some bv) :
    q.value = some (av / bv) ∧ bv ≠ 0 := by
  have hnz := calc_div_some_ne a b q h
  rw [hb] at hnz
  have hbv : bv ≠ 0 := fun h0 => hnz (by rw [h0])
  have hval := calc_div_value a b q h
  rw [ha, hb] at hval
  exact ⟨by rw [hval]; exact fdiv_some av bv hbv, hbv⟩

/-- **C1 (amended).**  Whenever `OhmLaw::calculating` completes, each of the
six classified pairs computes the other two nominal values by its dispatched
formula, and the results satisfy `V = I * R` and `P = V * I` exactly - for the
first five pairs unconditionally (the divisions' success already forces the
divisors nonzero), and for the `(R,P)` pair under the amendment forced by the
counterexample: `P >= 0`, `R > 0`, and `sq` returning the exact nonnegative
square roots of the two radicands. -/
theorem ohm_dispatch_formulas (sq : ℚ → ℚ) (st st2 : OhmLaw)
    (h : OhmLaw.calculating sq st = some st2) :
    (∀ v c vv cv, st.calc_type = CalcType.VCRP → st.data.voltage = .ok v →
      st.data.current = .ok c → v.value = some vv → c.value = some cv →
      ∃ r p, st2.data.resistance = .ok r ∧ st2.data.power = .ok p
        ∧ r.value = some (vv / cv) ∧ p.value = some (vv * cv)
        ∧ vv = cv * (vv / cv) ∧ vv * cv = vv * cv)
    ∧ (∀ v r vv rv, st.calc_type = CalcType.VRCP → st.data.voltage = .ok v →
      st.data.resistance = .ok r → v.value = some vv → r.value = some rv →
      ∃ c p, st2.data.current = .ok c ∧ st2.data.power = .ok p
        ∧ c.value = some (vv / rv) ∧ p.value = some (vv * (vv / rv))
        ∧ vv = (vv / rv) * rv ∧ vv * (vv / rv) = vv * (vv / rv))
    ∧ (∀ v p vv pv, st.calc_type = CalcType.VPCR → st.data.voltage = .ok v →
      st.data.power = .ok p → v.value = some vv → p.value = some pv →
      ∃ c r, st2.data.current = .ok c ∧ st2.data.resistance = .ok r
        ∧ c.value = some (pv / vv) ∧ r.value = some (vv / (pv / vv))
        ∧ pv = vv * (pv / vv) ∧ vv = (pv / vv) * (vv / (pv / vv)))
    ∧ (∀ c r cv rv, st.calc_type = CalcType.CRVP → st.data.current = .ok c →
      st.data.resistance = .ok r → c.value = some cv → r.value = some rv →
      ∃ v p, st2.data.voltage = .ok v ∧ st2.data.power = .ok p
        ∧ v.value = some (cv * rv) ∧ p.value = some ((cv * rv) * cv)
        ∧ cv * rv = cv * rv ∧ (cv * rv) * cv = (cv * rv) * cv)
    ∧ (∀ p c pv cv, st.calc_type = CalcType.CPVR → st.data.power = .ok p →
      st.data.current = .ok c → p.value = some pv → c.value = some cv →
      ∃ v r, st2.data.voltage = .ok v ∧ st2.data.resistance = .ok r
        ∧ v.value = some (pv / cv) ∧ r.value = some ((pv / cv) / cv)
        ∧ pv = (pv / cv) * cv ∧ pv / cv = cv * ((pv / cv) / cv))
    ∧ (∀ r p rv pv, st.calc_type = CalcType.RPVC → st.data.resistance = .ok r →
      st.data.power = .ok p → r.value = some rv → p.value = some pv →
      0 ≤ pv → 0 < rv → sqrtOkAt sq (pv * rv) → sqrtOkAt sq (pv / rv) →
      ∃ v c, st2.data.voltage = .ok v ∧ st2.data.current = .ok c
        ∧ v.value = some (sq (pv * rv)) ∧ c.value = some (sq (pv / rv))
        ∧ v.tolerance = none ∧ c.tolerance = none
        ∧ sq (pv * rv) = sq (pv / rv) * rv
        ∧ pv = sq (pv * rv) * sq (pv / rv)) := by
  refine ⟨?_, ?_, ?_, ?_, ?_, ?_⟩
  · intro v c vv cv hct hv hc hvv hcv
    unfold OhmLaw.calculating at h
    rw [hct, hv, hc] at h
    dsimp only at h
    rcases hd : voltage_div_current v c with _ | r0 <;> rw [hd] at h
    · cases h
    · simp only [Option.map_some', Option.some.injEq] at h
      subst h
      obtain ⟨hrv, hcv0⟩ := calc_div_some_value v c r0 vv cv hd hvv hcv
      refine ⟨r0, voltage_mul_current v c, rfl, rfl, hrv, ?_, ?_, rfl⟩
      · simp only [voltage_mul_current, calc_mul_value, hvv, hcv]; rfl
      · rw [mul_comm, div_mul_cancel₀ _ hcv0]
  · intro v r vv rv hct hv hr hvv hrv
    unfold OhmLaw.calculating at h
    rw [hct, hv, hr] at h
    dsimp only at h
    rcases hd : voltage_div_resistance v r with _ | c0 <;> rw [hd] at h
    · cases h
    · simp only [Option.map_some', Option.some.injEq] at h
      subst h
      obtain ⟨hcv, hrv0⟩ := calc_div_some_value v r c0 vv rv hd hvv hrv
      refine ⟨c0, voltage_mul_current v c0, rfl, rfl, hcv, ?_, ?_, rfl⟩
      · simp only [voltage_mul_current, calc_mul_value, hvv, hcv]; rfl
      · rw [div_mul_cancel₀ _ hrv0]
  · intro v p vv pv hct hv hp hvv hpv
    unfold OhmLaw.calculating at h
    rw [hct, hv, hp] at h
    dsimp only at h
    rcases hd1 : power_div_voltage p v with _ | c0 <;> rw [hd1] at h
    · cases h
    · simp only [Option.some_bind] at h
      rcases hd2 : voltage_div_current v c0 with _ | r0 <;> rw [hd2] at h
      · cases h
      · simp only [Option.map_some', Option.some.injEq] at h
        subst h
        obtain ⟨hcv, hvv0⟩ := calc_div_some_value p v c0 pv vv hd1 hpv hvv
        obtain ⟨hrv, hc0nz⟩ := calc_div_some_value v c0 r0 vv (pv / vv) hd2 hvv hcv
        refine ⟨c0, r0, rfl, rfl, hcv, hrv, ?_, ?_⟩
        · rw [mul_comm, div_mul_cancel₀ _ hvv0]
        · rw [mul_comm, div_mul_cancel₀ _ hc0nz]
  · intro c r cv rv hct hc hr hcv hrv
    unfold OhmLaw.calculating at h
    rw [hct, hr, hc] at h
    dsimp only at h
    simp only [Option.some.injEq] at h
    subst h
    refine ⟨current_mul_resistance c r,
      voltage_mul_current (current_mul_resistance c r) c, rfl, rfl, ?_, ?_, rfl, rfl⟩
    · simp only [current_mul_resistance, calc_mul_value, hcv, hrv]; rfl
    · simp only [voltage_mul_current, current_mul_resistance, calc_mul_value, hcv, hrv]; rfl
  · intro p c pv cv hct hp hc hpv hcv
    unfold OhmLaw.calculating at h
    rw [hct, hp, hc] at h
    dsimp only at h
    rcases hd1 : power_mul_current p c with _ | v0 <;> rw [hd1] at h
    · cases h
    · simp only [Option.some_bind] at h
      rcases hd2 : voltage_div_current v0 c with _ | r0 <;> rw [hd2] at h
      · cases h
      · simp only [Option.map_some', Option.some.injEq] at h
        subst h
        obtain ⟨hvv, hcv0⟩ := calc_div_some_value p c v0 pv cv hd1 hpv hcv
        obtain ⟨hrv, _⟩ := calc_div_some_value v0 c r0 (pv / cv) cv hd2 hvv hcv
        refine ⟨v0, r0, rfl, rfl, hvv, hrv, ?_, ?_⟩
        · rw [div_mul_cancel₀ _ hcv0]
        · rw [mul_comm, div_mul_cancel₀ _ hcv0]
  · intro r p rv pv hct hr hp hrv hpv hpnn hrpos hs1 hs2
    unfold OhmLaw.calculating at h
    rw [hct, hp, hr] at h
    dsimp only at h
    simp only [Option.some.injEq] at h
    subst h
    have hrnz : rv ≠ 0 := ne_of_gt hrpos
    obtain ⟨hs1n, hs1sq⟩ := hs1
    obtain ⟨hs2n, hs2sq⟩ := hs2
    have hid1 : sq (pv * rv) = sq (pv / rv) * rv := by
      have hsq : (sq (pv / rv) * rv) * (sq (pv / rv) * rv)
          = sq (pv * rv) * sq (pv * rv) := by
        rw [hs1sq]
        calc (sq (pv / rv) * rv) * (sq (pv / rv) * rv)
            = (sq (pv / rv) * sq (pv / rv)) * (rv * rv) := by ring
          _ = (pv / rv) * (rv * rv) := by rw [hs2sq]
          _ = pv * rv := by field_simp; ring
      have hge : 0 ≤ sq (pv / rv) * rv := mul_nonneg hs2n (le_of_lt hrpos)
      exact ((mul_self_inj hs1n hge).mp hsq.symm)
    have hid2 : pv = sq (pv * rv) * sq (pv / rv) := by
      have hsq : (sq (pv * rv) * sq (pv / rv)) * (sq (pv * rv) * sq (pv / rv))
          = pv * pv := by
        calc (sq (pv * rv) * sq (pv / rv)) * (sq (pv * rv) * sq (pv / rv))
            = (sq (pv * rv) * sq (pv * rv)) * (sq (pv / rv) * sq (pv / rv)) := by ring
          _ = (pv * rv) * (pv / rv) := by rw [hs1sq, hs2sq]
          _ = pv * pv := by field_simp; ring
      have hge : 0 ≤ sq (pv * rv) * sq (pv / rv) := mul_nonneg hs1n hs2n
      exact ((mul_self_inj hpnn hge).mp hsq.symm)
    refine ⟨⟨(fmul p.value r.value).map sq, none⟩, ⟨(fdiv p.value r.value).map sq, none⟩,
      rfl, rfl, ?_, ?_, rfl, rfl, hid1, hid2⟩
    · rw [hpv, hrv]; rfl
    · rw [hpv, hrv]; simp [fdiv, hrnz]

/-- **C1 witness**: the `(V,I)` pair at `V = 10`, `I = 2` solves to
`R = 10/2 = 5` and `P = 10*2 = 20`, satisfying the identities. -/
theorem ohm_dispatch_formulas_witness :
    OhmLaw.calculating sqStub ohmVC = some ohmVC2
    ∧ ∃ r p, ohmVC2.data.resistance = .ok r ∧ ohmVC2.data.power = .ok p
        ∧ r.value = some ((10 : ℚ) / 2) ∧ p.value = some ((10 : ℚ) * 2)
        ∧ (10 : ℚ) = 2 * (10 / 2) ∧ (10 : ℚ) * 2 = 10 * 2 := by
  have hcalc : OhmLaw.calculating sqStub ohmVC = some ohmVC2 := by decide
  exact ⟨hcalc, (ohm_dispatch_formulas sqStub ohmVC ohmVC2 hcalc).1
    ⟨some 10, none⟩ ⟨some 2, none⟩ 10 2 rfl rfl rfl rfl rfl⟩

/-! ## Claim C8: token priority order and the unconsumed remainder -/

theorem orElse_none_left {α : Type} (x : Option α) : (none <|> x : Option α) = x := rfl

theorem orElse_some_left {α : Type} (a : α) (x : Option α) :
    (some a <|> x : Option α) = some a := rfl

theorem fullOf_some_inv (p : List Char → Option (Block × List Char)) (cs : List Char)
    (b : Block) (h : fullOf p cs = some b) : p cs = some (b, []) := by
  unfold fullOf at h
  rcases hp : p cs with _ | ⟨b1, r1⟩ <;> rw [hp] at h <;> dsimp only at h
  · cases h
  · split at h
    · rename_i he
      cases h
      rw [List.isEmpty_iff] at he
      rw [he]
    · cases h

theorem fullOf_none_not_full (p : List Char → Option (Block × List Char)) (cs : List Char)
    (b : Block) (hn : fullOf p cs = none) (hf : p cs = some (b, [])) : False := by
  unfold fullOf at hn
  rw [hf] at hn
  simp at hn

theorem tagPercent_some_inv (o : Option (ℚ × List Char)) (q : ℚ) (r : List Char)
    (h : tagPercent o = some (q, r)) : o = some (q, '%' :: r) := by
  rcases o with _ | ⟨q0, r0⟩
  · cases h
  · cases r0 with
    | nil => cases h
    | cons ch rr =>
        simp only [tagPercent] at h
        split at h
        · rename_i hch
          cases h
          rw [hch]
        · cases h

theorem tagPercent_nil (q : ℚ) : tagPercent (some (q, [])) = none := rfl

theorem tagPercent_not_percent (q : ℚ) (ch : Char) (r : List Char) (h : ch ≠ '%') :
    tagPercent (some (q, ch :: r)) = none := by
  simp [tagPercent, h]

theorem suffixDim_ne_percent (ch : Char) (d : Dim) (h : suffixDim ch = some d) :
    ch ≠ '%' := by
  intro hch
  subst hch
  rw [show suffixDim '%' = none from rfl] at h
  cases h

theorem takeDigits_nil_of_not_digit (c : Char) (t : List Char) (h : ¬ c.isDigit = true) :
    takeDigits (c :: t) = ([], c :: t) := by
  simp [takeDigits, h]

theorem udouble_head (cs : List Char) (x : ℚ × List Char) (h : udouble cs = some x) :
    ∃ c t, cs = c :: t ∧ (c.isDigit = true ∨ c = '.') := by
  cases cs with
  | nil => simp [udouble, takeDigits] at h
  | cons c t =>
      refine ⟨c, t, rfl, ?_⟩
      by_cases hd : c.isDigit = true
      · exact Or.inl hd
      · right
        simp only [udouble, takeDigits_nil_of_not_digit c t hd, List.isEmpty_nil,
          if_true] at h
        by_cases hc : c = '.'
        · exact hc
        · simp [hc] at h

theorem udouble_none_of_head (c : Char) (t : List Char)
    (h1 : ¬ c.isDigit = true) (h2 : c ≠ '.') : udouble (c :: t) = none := by
  rcases hu : udouble (c :: t) with _ | x
  · rfl
  · obtain ⟨c2, t2, he, hcs⟩ := udouble_head (c :: t) x hu
    cases he
    rcases hcs with hd | hd
    · exact absurd hd h1
    · exact absurd hd h2

theorem isDigit_ne_plus (c : Char) (h : c.isDigit = true) : c ≠ '+' := by
  intro he; subst he; exact absurd h (by decide)

theorem isDigit_ne_minus (c : Char) (h : c.isDigit = true) : c ≠ '-' := by
  intro he; subst he; exact absurd h (by decide)

theorem isDigit_ne_slash (c : Char) (h : c.isDigit = true) : c ≠ '/' := by
  intro he; subst he; exact absurd h (by decide)

theorem double_cons_plus (t : List Char) : double ('+' :: t) = udouble t := by
  simp [double]

theorem double_cons_minus (t : List Char) :
    double ('-' :: t) = (udouble t).map (fun p => (-p.1, p.2)) := by
  simp [double]

theorem double_eq_udouble_of_head (c : Char) (t : List Char)
    (h : c.isDigit = true ∨ c = '.') : double (c :: t) = udouble (c :: t) := by
  have h1 : c ≠ '+' := by
    rcases h with h | h
    · exact isDigit_ne_plus c h
    · subst h; decide
  have h2 : c ≠ '-' := by
    rcases h with h | h
    · exact isDigit_ne_minus c h
    · subst h; decide
  simp [double, h1, h2]

theorem double_nil : double ([] : List Char) = none := rfl

theorem pPlus_none_of_head (c : Char) (t : List Char) (h : c ≠ '+') :
    pPlus (c :: t) = none := by
  simp [pPlus, h]

theorem pMinus_none_of_head (c : Char) (t : List Char) (h : c ≠ '-') :
    pMinus (c :: t) = none := by
  simp [pMinus, h]

theorem pPM_none_of_head (c : Char) (t : List Char) (h : c ≠ '+') :
    pPM (c :: t) = none := by
  cases t with
  | nil => rfl
  | cons c2 t2 =>
      cases t2 with
      | nil => rfl
      | cons c3 t3 => simp [pPM, h]

theorem pPM_none_of_second (c1 c2 : Char) (t2 : List Char) (h : c2 ≠ '/') :
    pPM (c1 :: c2 :: t2) = none := by
  cases t2 with
  | nil => rfl
  | cons c3 t3 => simp [pPM, h]

theorem udouble_map_neg_inv (t : List Char) (q : ℚ) (r : List Char)
    (h : (udouble t).map (fun p => (-p.1, p.2)) = some (q, r)) :
    udouble t = some (-q, r) := by
  rcases hu : udouble t with _ | ⟨q0, r0⟩ <;> rw [hu] at h
  · cases h
  · simp only [Option.map_some', Option.some.injEq, Prod.mk.injEq] at h
    obtain ⟨h1, h2⟩ := h
    rw [← h1, ← h2, neg_neg]

theorem pMinus_full_try (cs : List Char) (b : Block) (h : pMinus cs = some (b, [])) :
    try_parsers cs = some (b, []) := by
  cases cs with
  | nil => simp [pMinus] at h
  | cons c0 t0 =>
      by_cases hc : c0 = '-'
      · subst hc
        unfold try_parsers
        rw [pPlus_none_of_head _ _ (by decide), orElse_none_left, h, orElse_some_left]
      · rw [pMinus_none_of_head c0 t0 hc] at h
        cases h

theorem pPM_full_try (cs : List Char) (b : Block) (h : pPM cs = some (b, [])) :
    try_parsers cs = some (b, []) := by
  cases cs with
  | nil => simp [pPM] at h
  | cons c1 t1 =>
      cases t1 with
      | nil => simp [pPM] at h
      | cons c2 t2 =>
          cases t2 with
          | nil => simp [pPM] at h
          | cons c3 t3 =>
              by_cases hg : c1 = '+' ∧ c2 = '/' ∧ c3 = '-'
              · obtain ⟨hg1, hg2, hg3⟩ := hg
                subst hg1; subst hg2; subst hg3
                have hu : udouble ('/' :: '-' :: t3) = none :=
                  udouble_none_of_head '/' _ (by decide) (by decide)
                have hdv : double ('/' :: '-' :: t3) = none := by
                  simp [double, hu]
                have hplus : pPlus ('+' :: '/' :: '-' :: t3) = none := by
                  simp [pPlus, hdv, tagPercent]
                unfold try_parsers
                rw [hplus, orElse_none_left, pMinus_none_of_head _ _ (by decide),
                  orElse_none_left, h, orElse_some_left]
              · simp [pPM, hg] at h

theorem pPM2_full_try (cs : List Char) (b : Block) (h : pPM2 cs = some (b, []))
    (hplus : fullOf pPlus cs = none) (hminus : fullOf pMinus cs = none) :
    try_parsers cs = some (b, []) := by
  unfold pPM2 at h
  rcases ht : tagPercent (double cs) with _ | ⟨q, r⟩ <;> rw [ht] at h
  · cases h
  · simp only [Option.map_some', Option.some.injEq, Prod.mk.injEq] at h
    obtain ⟨hb, hr⟩ := h
    subst hr
    subst hb
    have hdq := tagPercent_some_inv (double cs) q [] ht
    cases cs with
    | nil => rw [double_nil] at hdq; cases hdq
    | cons c0 t0 =>
        by_cases hcp : c0 = '+'
        · exfalso
          subst hcp
          rw [double_cons_plus] at hdq
          obtain ⟨c1, t1, he1, hh1⟩ := udouble_head t0 _ hdq
          have hdt : double t0 = udouble t0 := by
            rw [he1]; exact double_eq_udouble_of_head c1 t1 hh1
          have hfull : pPlus ('+' :: t0) = some (Block.TolPlus q, []) := by
            simp [pPlus, hdt, hdq, tagPercent]
          exact fullOf_none_not_full pPlus _ _ hplus hfull
        · by_cases hcm : c0 = '-'
          · exfalso
            subst hcm
            rw [double_cons_minus] at hdq
            have hut := udouble_map_neg_inv t0 q ['%'] hdq
            obtain ⟨c1, t1, he1, hh1⟩ := udouble_head t0 _ hut
            have hdt : double t0 = udouble t0 := by
              rw [he1]; exact double_eq_udouble_of_head c1 t1 hh1
            have hfull : pMinus ('-' :: t0) = some (Block.TolMinus (abs (-q)), []) := by
              simp [pMinus, hdt, hut, tagPercent]
            exact fullOf_none_not_full pMinus _ _ hminus hfull
          · have hps : pPM2 (c0 :: t0) = some (Block.TolPlusMinus q, []) := by
              unfold pPM2
              rw [ht]
              rfl
            unfold try_parsers
            rw [pPlus_none_of_head _ _ hcp, orElse_none_left,
              pMinus_none_of_head _ _ hcm, orElse_none_left,
              pPM_none_of_head _ _ hcp, orElse_none_left, hps, orElse_some_left]

theorem pSuffix_full_try (cs : List Char) (b : Block) (h : pSuffix cs = some (b, [])) :
    try_parsers cs = some (b, []) := by
  unfold pSuffix at h
  rcases hd0 : double cs with _ | ⟨q, r⟩ <;> rw [hd0] at h <;> (try dsimp only at h)
  · cases h
  · cases r with
    | nil =>
        (try dsimp only at h)
        cases h
    | cons ch r2 =>
        (try dsimp only at h)
        rcases hs : suffixDim ch with _ | d <;> rw [hs] at h <;> (try dsimp only at h)
        · cases h
        · simp only [Option.some.injEq, Prod.mk.injEq] at h
          obtain ⟨hb, hr⟩ := h
          subst hr
          subst hb
          have hchp : ch ≠ '%' := suffixDim_ne_percent ch d hs
          have hsfx : pSuffix cs = some (Block.NumberSuffix q d, []) := by
            unfold pSuffix
            rw [hd0]
            dsimp only
            rw [hs]
          cases cs with
          | nil => rw [double_nil] at hd0; cases hd0
          | cons c0 t0 =>
              by_cases hcp : c0 = '+'
              · subst hcp
                have hdq : udouble t0 = some (q, [ch]) := by
                  rw [← double_cons_plus]; exact hd0
                obtain ⟨c1, t1, he1, hh1⟩ := udouble_head t0 _ hdq
                have hdt : double t0 = udouble t0 := by
                  rw [he1]; exact double_eq_udouble_of_head c1 t1 hh1
                have hplus : pPlus ('+' :: t0) = none := by
                  simp [pPlus, hdt, hdq, tagPercent, hchp]
                have hpm : pPM ('+' :: t0) = none := by
                  rw [he1]
                  have hc1 : c1 ≠ '/' := by
                    rcases hh1 with hdg | hdg
                    · exact isDigit_ne_slash c1 hdg
                    · subst hdg; decide
                  exact pPM_none_of_second '+' c1 t1 hc1
                have hpm2 : pPM2 ('+' :: t0) = none := by
                  unfold pPM2
                  rw [hd0, tagPercent_not_percent q ch [] hchp]
                  rfl
                unfold try_parsers
                rw [hplus, orElse_none_left, pMinus_none_of_head _ _ (by decide),
                  orElse_none_left, hpm, orElse_none_left, hpm2, orElse_none_left,
                  hsfx, orElse_some_left]
              · by_cases hcm : c0 = '-'
                · subst hcm
                  have hdq : (udouble t0).map (fun p => (-p.1, p.2)) = some (q, [ch]) := by
                    rw [← double_cons_minus]; exact hd0
                  have hut := udouble_map_neg_inv t0 q [ch] hdq
                  obtain ⟨c1, t1, he1, hh1⟩ := udouble_head t0 _ hut
                  have hdt : double t0 = udouble t0 := by
                    rw [he1]; exact double_eq_udouble_of_head c1 t1 hh1
                  have hminus : pMinus ('-' :: t0) = none := by
                    simp [pMinus, hdt, hut, tagPercent, hchp]
                  have hpm2 : pPM2 ('-' :: t0) = none := by
                    unfold pPM2
                    rw [hd0, tagPercent_not_percent q ch [] hchp]
                    rfl
                  unfold try_parsers
                  rw [pPlus_none_of_head _ _ (by decide), orElse_none_left, hminus,
                    orElse_none_left, pPM_none_of_head _ _ (by decide), orElse_none_left,
                    hpm2, orElse_none_left, hsfx, orElse_some_left]
                · have hpm2 : pPM2 (c0 :: t0) = none := by
                    unfold pPM2
                    rw [hd0, tagPercent_not_percent q ch [] hchp]
                    rfl
                  unfold try_parsers
                  rw [pPlus_none_of_head _ _ hcp, orElse_none_left,
                    pMinus_none_of_head _ _ hcm, orElse_none_left,
                    pPM_none_of_head _ _ hcp, orElse_none_left, hpm2, orElse_none_left,
                    hsfx, orElse_some_left]

theorem pNumber_full_try (cs : List Char) (b : Block) (h : pNumber cs = some (b, [])) :
    try_parsers cs = some (b, []) := by
  unfold pNumber at h
  rcases hd0 : double cs with _ | ⟨q, r⟩ <;> rw [hd0] at h
  · cases h
  · simp only [Option.map_some', Option.some.injEq, Prod.mk.injEq] at h
    obtain ⟨hb, hr⟩ := h
    subst hr
    subst hb
    have hnum : pNumber cs = some (Block.Number q, []) := by
      unfold pNumber
      rw [hd0]
      rfl
    have hpsfx : pSuffix cs = none := by
      unfold pSuffix
      rw [hd0]
    cases cs with
    | nil => rw [double_nil] at hd0; cases hd0
    | cons c0 t0 =>
        by_cases hcp : c0 = '+'
        · subst hcp
          have hdq : udouble t0 = some (q, []) := by
            rw [← double_cons_plus]; exact hd0
          obtain ⟨c1, t1, he1, hh1⟩ := udouble_head t0 _ hdq
          have hdt : double t0 = udouble t0 := by
            rw [he1]; exact double_eq_udouble_of_head c1 t1 hh1
          have hplus : pPlus ('+' :: t0) = none := by
            simp [pPlus, hdt, hdq, tagPercent]
          have hpm : pPM ('+' :: t0) = none := by
            rw [he1]
            have hc1 : c1 ≠ '/' := by
              rcases hh1 with hdg | hdg
              · exact isDigit_ne_slash c1 hdg
              · subst hdg; decide
            exact pPM_none_of_second '+' c1 t1 hc1
          have hpm2 : pPM2 ('+' :: t0) = none := by
            unfold pPM2
            rw [hd0, tagPercent_nil]
            rfl
          unfold try_parsers
          rw [hplus, orElse_none_left, pMinus_none_of_head _ _ (by decide),
            orElse_none_left, hpm, orElse_none_left, hpm2, orElse_none_left,
            hpsfx, orElse_none_left, hnum]
        · by_cases hcm : c0 = '-'
          · subst hcm
            have hdq : (udouble t0).map (fun p => (-p.1, p.2)) = some (q, []) := by
              rw [← double_cons_minus]; exact hd0
            have hut := udouble_map_neg_inv t0 q [] hdq
            obtain ⟨c1, t1, he1, hh1⟩ := udouble_head t0 _ hut
            have hdt : double t0 = udouble t0 := by
              rw [he1]; exact double_eq_udouble_of_head c1 t1 hh1
            have hminus : pMinus ('-' :: t0) = none := by
              simp [pMinus, hdt, hut, tagPercent]
            have hpm2 : pPM2 ('-' :: t0) = none := by
              unfold pPM2
              rw [hd0, tagPercent_nil]
              rfl
            unfold try_parsers
            rw [pPlus_none_of_head _ _ (by decide), orElse_none_left, hminus,
              orElse_none_left, pPM_none_of_head _ _ (by decide), orElse_none_left,
              hpm2, orElse_none_left, hpsfx, orElse_none_left, hnum]
          · have hpm2 : pPM2 (c0 :: t0) = none := by
              unfold pPM2
              rw [hd0, tagPercent_nil]
              rfl
            unfold try_parsers
            rw [pPlus_none_of_head _ _ hcp, orElse_none_left,
              pMinus_none_of_head _ _ hcm, orElse_none_left,
              pPM_none_of_head _ _ hcp, orElse_none_left, hpm2, orElse_none_left,
              hpsfx, orElse_none_left, hnum]

/-- **C8.**  (1) For every token, the six candidate interpretations behave as
if tried in the fixed priority order TolPlus, TolMinus, explicit TolPlusMinus,
bare TolPlusMinus, NumberSuffix, Number with the first interpretation that
consumes the entire token succeeding: whenever some interpretation consumes
the whole token, `try_parsers` returns exactly the first such one, consuming
everything.  (2) Whenever tokenization leaves a non-empty remainder, the field
parse fails with `IncorrectInput` carrying exactly that remainder. -/
theorem token_priority_and_remainder :
    (∀ cs b, firstFullMatch cs = some b → try_parsers cs = some (b, []))
    ∧ (∀ (s : String) rest blocks,
        parse_blocks (trimList s.data) = some (rest, blocks) → rest ≠ [] →
        from_str s = .error (.incorrectInput (String.mk rest))) := by
  constructor
  · intro cs b hf
    unfold firstFullMatch at hf
    rcases h1 : fullOf pPlus cs with _ | b1 <;> rw [h1] at hf
    · rw [orElse_none_left] at hf
      rcases h2 : fullOf pMinus cs with _ | b2 <;> rw [h2] at hf
      · rw [orElse_none_left] at hf
        rcases h3 : fullOf pPM cs with _ | b3 <;> rw [h3] at hf
        · rw [orElse_none_left] at hf
          rcases h4 : fullOf pPM2 cs with _ | b4 <;> rw [h4] at hf
          · rw [orElse_none_left] at hf
            rcases h5 : fullOf pSuffix cs with _ | b5 <;> rw [h5] at hf
            · rw [orElse_none_left] at hf
              exact pNumber_full_try cs b (fullOf_some_inv pNumber cs b hf)
            · rw [orElse_some_left] at hf
              cases hf
              exact pSuffix_full_try cs b (fullOf_some_inv pSuffix cs b h5)
          · rw [orElse_some_left] at hf
            cases hf
            exact pPM2_full_try cs b (fullOf_some_inv pPM2 cs b h4) h1 h2
        · rw [orElse_some_left] at hf
          cases hf
          exact pPM_full_try cs b (fullOf_some_inv pPM cs b h3)
      · rw [orElse_some_left] at hf
        cases hf
        exact pMinus_full_try cs b (fullOf_some_inv pMinus cs b h2)
    · rw [orElse_some_left] at hf
      cases hf
      unfold try_parsers
      rw [fullOf_some_inv pPlus cs b h1, orElse_some_left]
  · intro s rest blocks hpb hne
    simp only [from_str]
    by_cases hE : (trimList s.data).isEmpty = true
    · exfalso
      rw [List.isEmpty_iff] at hE
      rw [hE] at hpb
      rw [show parse_blocks [] = none from rfl] at hpb
      cases hpb
    · rw [if_neg hE, hpb]
      cases rest with
      | nil => exact absurd rfl hne
      | cons c r2 => rfl

/-- **C8 witness**: the token `"5%"` is fully consumed by the bare
plus-slash-minus interpretation (the first full consumer), and the field text
`"12x"` tokenizes with remainder `"x"` and parses to `IncorrectInput "x"`. -/
theorem token_priority_and_remainder_witness :
    firstFullMatch ['5', '%'] = some (Block.TolPlusMinus 5)
    ∧ try_parsers ['5', '%'] = some (Block.TolPlusMinus 5, [])
    ∧ parse_blocks (trimList "12x".data) = some (['x'], [Block.Number 12])
    ∧ from_str "12x" = .error (.incorrectInput (String.mk ['x'])) := by
  refine ⟨by decide, token_priority_and_remainder.1 ['5', '%'] _ (by decide), by decide,
    token_priority_and_remainder.2 "12x" ['x'] [Block.Number 12] (by decide) (by decide)⟩

end ECW
